import Mathlib

/-!
Shallow embedding of the protocol-resolution core of `src/defillama.py`
(`DefiLlamaClient.resolve_protocol` and `DefiLlamaClient._build_parent_result`),
together with the pieces of the Python standard library the code leans on
(`difflib.SequenceMatcher.ratio`, `difflib.get_close_matches`,
`heapq.nlargest`, `collections.Counter.most_common`), and proofs of the
specification claims about that core.

Modelling conventions:

* A registry record is `Rec`, with `Option String` fields; a missing JSON key
  is `none`.  Python `d.get(k, "")` is `Option.getD`, and a bare `d[k]` access
  that can raise `KeyError` is modelled by `Except RErr` with error `.keyErr`.
* `ProtocolNotFoundError` is `.notFound input suggestions`, carrying the
  original (non-normalised) input and the ordered suggestion names.
* The difflib ratio `2*M/T` is kept as an exact pair of naturals
  (`ratPair = (2*M, T)`, with `(1,1)` for `T = 0` as in difflib), compared by
  cross multiplication; IEEE-float rounding of the Python ratio and the
  autojunk heuristic (which only triggers on inputs of length at least 200)
  are not modelled.
* `heapq.nlargest` on `(score, string)` pairs sorts descending by score and
  breaks score ties by the larger string (Python tuple comparison); it is
  embedded as an insertion sort with exactly that relation.
  `Counter.most_common(1)` uses `nlargest` with a key function, which is
  stable, i.e. ties go to the first-inserted counter key.
* Python `dict` keys iterate in first-insertion order while later writes to
  an existing key overwrite its value in place; lookups are last-write-wins.
* Python `set` iteration order is unspecified; the single loop over a set
  (the hyphens-to-spaces scan over parent slugs) is embedded in
  first-insertion order, and every theorem touching that loop carries
  hypotheses which make the iteration order irrelevant.
* String helpers (`lower`, `strip`, `title`, `isspace`) are modelled for
  ASCII data, which is what protocol registries contain.
-/

namespace DefiAgent

/-! ### Python string helpers -/

/-- ASCII whitespace, as removed by Python `str.strip()`. -/
def isPySpace (c : Char) : Bool :=
  c = ' ' || c = '\t' || c = '\n' || c = '\r' || c = '\x0b' || c = '\x0c'

def pyStripChars (cs : List Char) : List Char :=
  ((cs.dropWhile isPySpace).reverse.dropWhile isPySpace).reverse

/-- Python `s.strip()`. -/
def pyStrip (s : String) : String := ⟨pyStripChars s.data⟩

/-- Python `str.lower` on one ASCII character. -/
def pyLowerChar (c : Char) : Char :=
  if 'A' ≤ c ∧ c ≤ 'Z' then Char.ofNat (c.toNat + 32) else c

/-- Python `s.lower()`. -/
def pyLower (s : String) : String := ⟨s.data.map pyLowerChar⟩

/-- Python `str.upper` on one ASCII character. -/
def pyUpperChar (c : Char) : Char :=
  if 'a' ≤ c ∧ c ≤ 'z' then Char.ofNat (c.toNat - 32) else c

/-- Python `s.title()`: an alphabetic character is uppercased when the
previous character is not alphabetic and lowercased otherwise. -/
def pyTitleGo : Bool → List Char → List Char
  | _, [] => []
  | prevCased, c :: cs =>
    if c.isAlpha then
      (if prevCased then pyLowerChar c else pyUpperChar c) :: pyTitleGo true cs
    else c :: pyTitleGo false cs

def pyTitle (s : String) : String := ⟨pyTitleGo false s.data⟩

/-- Python `s.replace("-", " ")`. -/
def hyphenToSpace (s : String) : String :=
  ⟨s.data.map (fun c => if c = '-' then ' ' else c)⟩

/-- `leadsWith pat cs` is Python `"".join(cs).startswith("".join(pat))`. -/
def leadsWith : List Char → List Char → Bool
  | [], _ => true
  | _ :: _, [] => false
  | a :: as, b :: bs => a == b && leadsWith as bs

/-- The piece before the first occurrence of `sep`: Python `s.split(sep)[0]`
for a non-empty `sep`. -/
def splitFirst (sep : List Char) : List Char → List Char
  | [] => []
  | c :: cs => if leadsWith sep (c :: cs) then [] else c :: splitFirst sep cs

/-- The version-stripped base of a display name:
Python `name.split(" V")[0].split(" v")[0].strip()`. -/
def baseName (s : String) : String :=
  ⟨pyStripChars (splitFirst (" v".data) (splitFirst (" V".data) s.data))⟩

/-- Python string comparison (lexicographic by code point, with a proper
non-empty extension being larger). -/
def charsLtB : List Char → List Char → Bool
  | [], [] => false
  | [], _ :: _ => true
  | _ :: _, [] => false
  | a :: as, b :: bs => if a < b then true else if b < a then false else charsLtB as bs

/-! ### The difflib similarity ratio

`SequenceMatcher.ratio()` is `2*M/T` where `M` is the total size of the
matching blocks found by the Ratcliff-Obershelp recursion (each step takes
the longest common block, leftmost in the first sequence and then leftmost
in the second on ties, and recurses on the parts before and after it) and
`T` is the sum of the lengths; for `T = 0` the ratio is defined to be 1. -/

/-- Length of the common run starting at the heads of the two lists. -/
def runLen : List Char → List Char → Nat
  | a :: as, b :: bs => if a = b then runLen as bs + 1 else 0
  | _, _ => 0

/-- `(i, j, k)`: the longest common block, `k` maximal and then `i`, then `j`
minimal, exactly as `SequenceMatcher.find_longest_match` picks it in the
absence of junk. -/
def longestMatch (a b : List Char) : Nat × Nat × Nat :=
  (List.range a.length).foldl (fun best i =>
    (List.range b.length).foldl (fun best j =>
      let k := runLen (a.drop i) (b.drop j)
      if best.2.2 < k then (i, j, k) else best) best) (0, 0, 0)

/-- Total matched size of the Ratcliff-Obershelp block decomposition, with
explicit fuel for the divide-and-conquer recursion. -/
def matchedSizeF : Nat → List Char → List Char → Nat
  | 0, _, _ => 0
  | fuel + 1, a, b =>
    let m := longestMatch a b
    if m.2.2 = 0 then 0
    else
      matchedSizeF fuel (a.take m.1) (b.take m.2.1) + m.2.2 +
        matchedSizeF fuel (a.drop (m.1 + m.2.2)) (b.drop (m.2.1 + m.2.2))

def matchedSize (a b : List Char) : Nat :=
  matchedSizeF (a.length + b.length) a b

/-- The ratio of candidate `a` against input `b` as an exact fraction
`(numerator, denominator)` with a positive denominator:
`(2*M, T)`, or `(1, 1)` when `T = 0` (difflib returns `1.0` there). -/
def ratPair (a b : String) : Nat × Nat :=
  let T := a.data.length + b.data.length
  if T = 0 then (1, 1) else (2 * matchedSize a.data b.data, T)

/-- `num/den ≤ p` for a ratio pair `p`: the cutoff test of
`get_close_matches` (used with `85/100` and `2/5`). -/
def ratioGeB (p : Nat × Nat) (num den : Nat) : Bool :=
  num * p.2 ≤ p.1 * den

/-- Strict fraction comparison `y < x` between ratio pairs. -/
def ratGtB (x y : Nat × Nat) : Bool := y.1 * x.2 < x.1 * y.2

/-- Fraction equality between ratio pairs. -/
def ratEqB (x y : Nat × Nat) : Bool := x.1 * y.2 == y.1 * x.2

/-! ### Records and derived indices

`resolve_protocol` builds four lookup structures in one pass over the
snapshot: `slug_map`, `name_map`, `parent_slugs`, `parent_children`, and
later `parent_name_map`.  The dict lookups below are stated directly by
their last-write-wins / first-insertion-order semantics. -/

/-- One entry of the `/protocols` snapshot; `none` is a missing key. -/
structure Rec where
  slug : Option String
  name : Option String
  category : Option String
  parentProtocol : Option String
deriving DecidableEq

/-- The resolver's result dict. `children` is the ordered list of
`(name, slug)` pairs. -/
structure Res where
  slug : String
  name : String
  is_parent : Bool
  children : List (String × String)
  category : Option String
deriving DecidableEq

/-- What `resolve_protocol` can raise: a `KeyError` escaping from a bare
`p["slug"]` / `p["name"]` access, or `ProtocolNotFoundError` carrying the
original input and the suggestion names. -/
inductive RErr where
  | keyErr : RErr
  | notFound : String → List String → RErr
deriving DecidableEq

instance : DecidableEq (Except RErr Res) := fun a b =>
  match a, b with
  | .ok x, .ok y =>
    if h : x = y then isTrue (by rw [h])
    else isFalse (by intro hh; injection hh; contradiction)
  | .error x, .error y =>
    if h : x = y then isTrue (by rw [h])
    else isFalse (by intro hh; injection hh; contradiction)
  | .ok _, .error _ => isFalse (by intro h; cases h)
  | .error _, .ok _ => isFalse (by intro h; cases h)

/-- `p.get("slug", "").lower()`: the key this record contributes to
`slug_map`. -/
def slugKey (p : Rec) : String := pyLower (p.slug.getD "")

/-- `p.get("name", "").lower()`: the key this record contributes to
`name_map`. -/
def nameKey (p : Rec) : String := pyLower (p.name.getD "")

/-- `slug_map[k]` after the build loop: the dict is last-write-wins, so the
lookup yields the last record whose lowercased slug is `k`. -/
def slugLookup (protocols : List Rec) (k : String) : Option Rec :=
  (protocols.filter (fun p => slugKey p == k)).getLast?

/-- `name_map[k]` after the build loop (same collision policy). -/
def nameLookup (protocols : List Rec) (k : String) : Option Rec :=
  (protocols.filter (fun p => nameKey p == k)).getLast?

/-- The lowercased parent slug this record's `parentProtocol` backreference
contributes, when the reference is truthy and starts with `"parent#"`:
`parent_ref.split("#", 1)[1].lower()`. -/
def parentRefSlug (p : Rec) : Option String :=
  let ref := p.parentProtocol.getD ""
  if leadsWith "parent#".data ref.data then some (pyLower ⟨ref.data.drop 7⟩) else none

/-- First-occurrence deduplication, i.e. dict-key insertion order. -/
def dedupFirstAux (seen : List String) : List String → List String
  | [] => []
  | x :: xs =>
    if seen.contains x then dedupFirstAux seen xs
    else x :: dedupFirstAux (x :: seen) xs

def dedupFirst (l : List String) : List String := dedupFirstAux [] l

/-- The keys of `slug_map` in insertion order. -/
def slugKeys (protocols : List Rec) : List String :=
  dedupFirst (protocols.map slugKey)

/-- The keys of `name_map` in insertion order. -/
def nameKeys (protocols : List Rec) : List String :=
  dedupFirst (protocols.map nameKey)

/-- The `parent_slugs` set, enumerated in first-insertion order. -/
def parentSlugsList (protocols : List Rec) : List String :=
  dedupFirst (protocols.filterMap parentRefSlug)

/-- `parent_children[ps]`: members are appended in snapshot order, so the
stored group is exactly the sublist of records referencing `ps`. -/
def childrenOf (protocols : List Rec) (ps : String) : List Rec :=
  protocols.filter (fun p => parentRefSlug p == some ps)

/-- The `(base_name.lower(), parent_slug)` writes into `parent_name_map`,
in the order the build loops produce them (groups in key insertion order,
members in snapshot order). -/
def parentNamePairs (protocols : List Rec) : List (String × String) :=
  ((parentSlugsList protocols).map (fun ps =>
    (childrenOf protocols ps).map (fun c => (pyLower (baseName (c.name.getD "")), ps)))).flatten

/-- `parent_name_map[k]`: last write wins. -/
def pnmLookup (protocols : List Rec) (k : String) : Option String :=
  (((parentNamePairs protocols).filter (fun e => e.1 == k)).getLast?).map (fun e => e.2)

/-- The keys of `parent_name_map` in insertion order. -/
def pnmKeys (protocols : List Rec) : List String :=
  dedupFirst ((parentNamePairs protocols).map (fun e => e.1))

/-! ### The parent aggregator (`_build_parent_result`) -/

/-- `[c.get("category") for c in children if c.get("category")]`:
the truthiness test drops both missing and empty categories. -/
def memberCats (children : List Rec) : List String :=
  children.filterMap (fun c =>
    match c.category with
    | some s => if s = "" then none else some s
    | none => none)

/-- Occurrences of `x` in `xs` (`Counter` count). -/
def countOcc (x : String) (xs : List String) : Nat :=
  (xs.filter (fun y => y == x)).length

/-- Scan of `Counter.most_common(1)`: keep the current best unless a later
key has a strictly larger count (`nlargest` with a key function is stable,
so ties go to the earlier counter key). -/
def pickMax (xs : List String) (b : String) : List String → String
  | [] => b
  | v :: rest =>
    if countOcc b xs < countOcc v xs then pickMax xs v rest else pickMax xs b rest

/-- `Counter(xs).most_common(1)[0][0]` (`none` for an empty list): counter
keys iterate in first-occurrence order. -/
def mostCommon1 (xs : List String) : Option String :=
  match dedupFirst xs with
  | [] => none
  | f :: rest => some (pickMax xs f rest)

/-- Position of the first occurrence of `x` (for stating first-encountered
tie-breaking; the length of the list when `x` is absent). -/
def idxOf (x : String) : List String → Nat
  | [] => 0
  | y :: ys => if y = x then 0 else idxOf x ys + 1

/-- The display-name loop of `_build_parent_result`: the first member whose
version-stripped base name, lowercased, equals the target overrides the
default (`break`). -/
def deriveParentName (target deflt : String) : List Rec → String
  | [] => deflt
  | c :: rest =>
    if pyLower (baseName (c.name.getD "")) = target then baseName (c.name.getD "")
    else deriveParentName target deflt rest

/-- `[{"name": c["name"], "slug": c["slug"]} for c in children]`:
bare dict accesses, so a member missing either field raises. -/
def childPairs : List Rec → Option (List (String × String))
  | [] => some []
  | c :: cs =>
    match c.name, c.slug with
    | some n, some s => (childPairs cs).map (fun rest => (n, s) :: rest)
    | _, _ => none

/-- `_build_parent_result(parent_slug, parent_children)`. -/
def buildParentResult (protocols : List Rec) (ps : String) : Except RErr Res :=
  match childPairs (childrenOf protocols ps) with
  | some prs =>
    .ok ⟨ps,
         deriveParentName (hyphenToSpace ps) (pyTitle (hyphenToSpace ps))
           (childrenOf protocols ps),
         true, prs, mostCommon1 (memberCats (childrenOf protocols ps))⟩
  | none => .error .keyErr

/-! ### The resolver (`resolve_protocol`) -/

/-- The non-parent result shape used by the exact and fuzzy slug/name tiers:
bare `p["slug"]` / `p["name"]` accesses. -/
def mkNonParent (p : Rec) : Except RErr Res :=
  match p.slug, p.name with
  | some s, some n => .ok ⟨s, n, false, [], p.category⟩
  | _, _ => .error .keyErr

/-- Tag of a fuzzy candidate key. -/
inductive CKind where
  | slug : CKind
  | name : CKind
  | parent : CKind
deriving DecidableEq

/-- One write into the `all_candidates` dict: an existing key keeps its
position but its tagged value is overwritten. -/
def candInsert (acc : List (String × CKind × String)) (e : String × CKind × String) :
    List (String × CKind × String) :=
  if acc.any (fun x => x.1 == e.1) then
    acc.map (fun x => if x.1 == e.1 then e else x)
  else acc ++ [e]

/-- The writes into `all_candidates`, in program order: slug keys, then name
keys, then parent slugs, then parent derived names (dict items of
`parent_name_map`: keys in insertion order, values last-write-wins). -/
def candEntries (protocols : List Rec) : List (String × CKind × String) :=
  (slugKeys protocols).map (fun k => (k, CKind.slug, k)) ++
    (nameKeys protocols).map (fun k => (k, CKind.name, k)) ++
    (parentSlugsList protocols).map (fun k => (k, CKind.parent, k)) ++
    (pnmKeys protocols).filterMap (fun k =>
      (pnmLookup protocols k).map (fun ps => (k, CKind.parent, ps)))

/-- The `all_candidates` dict as an insertion-ordered association list. -/
def allCandidates (protocols : List Rec) : List (String × CKind × String) :=
  (candEntries protocols).foldl candInsert []

/-- The `heapq.nlargest` order on `(ratio, key)` pairs for candidate keys:
`c` sorts before `b` when its ratio against the input is larger, or equal
with the lexicographically larger key (Python tuple comparison). -/
def candBefore (input : String) (c b : String × CKind × String) : Prop :=
  ratGtB (ratPair c.1 input) (ratPair b.1 input) = true ∨
    (ratEqB (ratPair c.1 input) (ratPair b.1 input) = true ∧
      (charsLtB b.1.data c.1.data = true ∨ b.1 = c.1))

instance (input : String) : DecidableRel (candBefore input) := fun _ _ => by
  unfold candBefore; infer_instance

/-- The candidate keys passing the `0.85` cutoff, in candidate order. -/
def qualifyingCands (protocols : List Rec) (normalized : String) :
    List (String × CKind × String) :=
  (allCandidates protocols).filter (fun c => ratioGeB (ratPair c.1 normalized) 85 100)

/-- `get_close_matches(normalized, all_candidates.keys(), n=5, cutoff=0.85)[0]`:
the head of the qualifying candidates sorted in `nlargest` order. -/
def bestCand (protocols : List Rec) (normalized : String) :
    Option (String × CKind × String) :=
  (List.insertionSort (candBefore normalized) (qualifyingCands protocols normalized)).head?

/-- The dispatch on the winning candidate's tagged kind. -/
def dispatchCand (protocols : List Rec) (c : String × CKind × String) : Except RErr Res :=
  match c.2.1 with
  | CKind.parent => buildParentResult protocols c.2.2
  | CKind.slug =>
    match slugLookup protocols c.2.2 with
    | some p => mkNonParent p
    | none => .error .keyErr
  | CKind.name =>
    match nameLookup protocols c.2.2 with
    | some p => mkNonParent p
    | none => .error .keyErr

/-- The `nlargest` order on `(ratio, name)` pairs for suggestion keys. -/
def suggBefore (input : String) (x y : String) : Prop :=
  ratGtB (ratPair x input) (ratPair y input) = true ∨
    (ratEqB (ratPair x input) (ratPair y input) = true ∧
      (charsLtB y.data x.data = true ∨ y = x))

instance (input : String) : DecidableRel (suggBefore input) := fun _ _ => by
  unfold suggBefore; infer_instance

/-- `get_close_matches(normalized, [n.lower() for n in all_names], n=3, cutoff=0.4)`. -/
def suggestionKeys (protocols : List Rec) (normalized : String) : List String :=
  (List.insertionSort (suggBefore normalized)
    ((protocols.map (fun p => pyLower (p.name.getD ""))).filter
      (fun nm => ratioGeB (ratPair nm normalized) 2 5))).take 3

/-- The loop mapping each lowercased suggestion back to the first record with
that lowercased name, collecting its display name via a bare `p["name"]`. -/
def mapBackSuggestions (protocols : List Rec) : List String → Except RErr (List String)
  | [] => .ok []
  | s :: rest =>
    match protocols.find? (fun p => nameKey p == s) with
    | some p =>
      match p.name with
      | some n => (mapBackSuggestions protocols rest).map (fun ns => n :: ns)
      | none => .error .keyErr
    | none => mapBackSuggestions protocols rest

/-- The tier cascade of `resolve_protocol`, after normalisation. -/
def resolveCore (protocols : List Rec) (userInput normalized : String) : Except RErr Res :=
  match slugLookup protocols normalized with
  | some p => mkNonParent p
  | none =>
    match nameLookup protocols normalized with
    | some p => mkNonParent p
    | none =>
      if normalized ∈ parentSlugsList protocols then
        buildParentResult protocols normalized
      else
        match (parentSlugsList protocols).find? (fun ps => hyphenToSpace ps == normalized) with
        | some ps => buildParentResult protocols ps
        | none =>
          match pnmLookup protocols normalized with
          | some ps => buildParentResult protocols ps
          | none =>
            match bestCand protocols normalized with
            | some c => dispatchCand protocols c
            | none =>
              match mapBackSuggestions protocols (suggestionKeys protocols normalized) with
              | .ok sg => .error (.notFound userInput sg)
              | .error e => .error e

/-- `resolve_protocol(user_input)`: normalise once
(`user_input.strip().lower()`), then run the tiers. -/
def resolve (protocols : List Rec) (userInput : String) : Except RErr Res :=
  resolveCore protocols userInput (pyLower (pyStrip userInput))

/-- Snapshots in which every record carries both a slug and a name (the
well-formedness the spec assumes of registry data). -/
def WF (protocols : List Rec) : Prop :=
  ∀ p ∈ protocols, p.slug.isSome ∧ p.name.isSome

instance (protocols : List Rec) : Decidable (WF protocols) := by
  unfold WF
  infer_instance

/-- Failure of all five matching tiers for a normalised input: no exact
slug, no exact name, no parent structural match (verbatim or de-hyphenated),
no parent derived-name match, and no fuzzy candidate at the 0.85 cutoff. -/
def noTierMatch (protocols : List Rec) (normalized : String) : Prop :=
  slugLookup protocols normalized = none ∧
    nameLookup protocols normalized = none ∧
    normalized ∉ parentSlugsList protocols ∧
    (parentSlugsList protocols).find? (fun ps => hyphenToSpace ps == normalized) = none ∧
    pnmLookup protocols normalized = none ∧
    qualifyingCands protocols normalized = []

/-! ### Generic helper lemmas -/

/-- A last-write-wins dict lookup at a key held by exactly one record
returns that record. -/
theorem getLast?_filter_of_unique {α : Type} (p : α → Bool) (l : List α) (a : α)
    (ha : a ∈ l) (hpa : p a = true) (huniq : ∀ x ∈ l, p x = true → x = a) :
    (l.filter p).getLast? = some a := by
  have hne : l.filter p ≠ [] := List.ne_nil_of_mem (List.mem_filter.2 ⟨ha, hpa⟩)
  obtain ⟨y, hy⟩ := Option.isSome_iff_exists.1 (List.getLast?_isSome.2 hne)
  have hmem : y ∈ l.filter p := List.mem_of_mem_getLast? hy
  obtain ⟨hyl, hpy⟩ := List.mem_filter.1 hmem
  rw [hy, huniq y hyl hpy]

theorem mem_dedupFirstAux {x : String} :
    ∀ {seen l : List String},
      x ∈ dedupFirstAux seen l ↔ x ∈ l ∧ seen.contains x = false := by
  intro seen l
  induction l generalizing seen with
  | nil => simp [dedupFirstAux]
  | cons a as ih =>
    cases hc : seen.contains a with
    | true =>
      rw [dedupFirstAux, if_pos hc, ih]
      constructor
      · rintro ⟨hm, hs⟩; exact ⟨List.mem_cons_of_mem _ hm, hs⟩
      · rintro ⟨hm, hs⟩
        rcases List.mem_cons.1 hm with rfl | hm
        · rw [hc] at hs; cases hs
        · exact ⟨hm, hs⟩
    | false =>
      rw [dedupFirstAux, if_neg (by rw [hc]; exact Bool.false_ne_true)]
      simp only [List.mem_cons, ih]
      constructor
      · rintro (rfl | ⟨hm, hs⟩)
        · exact ⟨Or.inl rfl, hc⟩
        · refine ⟨Or.inr hm, ?_⟩
          rw [List.contains_cons] at hs
          exact (Bool.or_eq_false_iff.1 hs).2
      · rintro ⟨rfl | hm, hs⟩
        · exact Or.inl rfl
        · by_cases hxa : x = a
          · exact Or.inl hxa
          · refine Or.inr ⟨hm, ?_⟩
            rw [List.contains_cons, Bool.or_eq_false_iff]
            exact ⟨by simp [hxa], hs⟩

theorem mem_dedupFirst {x : String} {l : List String} : x ∈ dedupFirst l ↔ x ∈ l := by
  rw [dedupFirst, mem_dedupFirstAux]
  simp

/-- Every parent slug in the set has at least one member in
`parent_children` (the two structures are filled together). -/
theorem childrenOf_ne_nil_of_mem_parentSlugsList {protocols : List Rec} {ps : String}
    (h : ps ∈ parentSlugsList protocols) : childrenOf protocols ps ≠ [] := by
  obtain ⟨p, hp, hps⟩ := List.mem_filterMap.1 (mem_dedupFirst.1 h)
  exact List.ne_nil_of_mem (List.mem_filter.2 ⟨hp, by simp [hps]⟩)

/-- Values of `parent_name_map` are keys of `parent_children`. -/
theorem pnm_value_mem_parentSlugsList {protocols : List Rec} {k ps : String}
    (h : pnmLookup protocols k = some ps) : ps ∈ parentSlugsList protocols := by
  unfold pnmLookup at h
  obtain ⟨e, he, hev⟩ := Option.map_eq_some'.1 h
  have hmem : e ∈ parentNamePairs protocols :=
    List.mem_of_mem_filter (List.mem_of_mem_getLast? he)
  obtain ⟨grp, hgrp, hegrp⟩ := List.mem_flatten.1 hmem
  obtain ⟨ps', hps', rfl⟩ := List.mem_map.1 hgrp
  obtain ⟨c, _, hc⟩ := List.mem_map.1 hegrp
  have : e.2 = ps' := by rw [← hc]
  rw [← hev, this]
  exact hps'

theorem mem_candInsert {e x : String × CKind × String}
    {acc : List (String × CKind × String)} (h : x ∈ candInsert acc e) :
    x = e ∨ x ∈ acc := by
  unfold candInsert at h
  split at h
  · obtain ⟨y, hy, hxy⟩ := List.mem_map.1 h
    by_cases hk : (y.1 == e.1) = true
    · simp [hk] at hxy; exact Or.inl hxy.symm
    · simp [hk] at hxy; exact Or.inr (hxy ▸ hy)
  · rcases List.mem_append.1 h with hm | hm
    · exact Or.inr hm
    · simp at hm; exact Or.inl hm

theorem mem_foldl_candInsert {x : String × CKind × String} :
    ∀ {l acc : List (String × CKind × String)},
      x ∈ l.foldl candInsert acc → x ∈ acc ∨ x ∈ l := by
  intro l
  induction l with
  | nil => intro acc h; exact Or.inl h
  | cons e es ih =>
    intro acc h
    rcases ih (by simpa using h) with hm | hm
    · rcases mem_candInsert hm with rfl | hm
      · exact Or.inr (by simp)
      · exact Or.inl hm
    · exact Or.inr (by simp [hm])

/-- Provenance of fuzzy candidates: every entry of `all_candidates` is one
of the writes, so a parent-tagged entry always targets a live parent slug,
and slug/name-tagged entries target their own key. -/
theorem allCandidates_spec {protocols : List Rec} {e : String × CKind × String}
    (h : e ∈ allCandidates protocols) :
    (e.2.1 = CKind.slug → e.2.2 ∈ slugKeys protocols) ∧
      (e.2.1 = CKind.name → e.2.2 ∈ nameKeys protocols) ∧
      (e.2.1 = CKind.parent → e.2.2 ∈ parentSlugsList protocols) := by
  rcases mem_foldl_candInsert h with hm | hm
  · cases hm
  · unfold candEntries at hm
    rcases List.mem_append.1 hm with hm | hm4
    · rcases List.mem_append.1 hm with hm | hm3
      · rcases List.mem_append.1 hm with hm1 | hm2
        · obtain ⟨k, hk, rfl⟩ := List.mem_map.1 hm1
          exact ⟨fun _ => hk, by rintro ⟨⟩, by rintro ⟨⟩⟩
        · obtain ⟨k, hk, rfl⟩ := List.mem_map.1 hm2
          exact ⟨by rintro ⟨⟩, fun _ => hk, by rintro ⟨⟩⟩
      · obtain ⟨k, hk, rfl⟩ := List.mem_map.1 hm3
        exact ⟨by rintro ⟨⟩, by rintro ⟨⟩, fun _ => hk⟩
    · obtain ⟨k, _, hk⟩ := List.mem_filterMap.1 hm4
      obtain ⟨ps, hps, rfl⟩ := Option.map_eq_some'.1 hk
      exact ⟨by rintro ⟨⟩, by rintro ⟨⟩, fun _ => pnm_value_mem_parentSlugsList hps⟩

/-- Keys of `slug_map` have a resolvable record. -/
theorem slugLookup_isSome_of_mem_slugKeys {protocols : List Rec} {k : String}
    (h : k ∈ slugKeys protocols) : ∃ p, slugLookup protocols k = some p := by
  obtain ⟨p, hp, hk⟩ := List.mem_map.1 (mem_dedupFirst.1 h)
  have hne : protocols.filter (fun p => slugKey p == k) ≠ [] :=
    List.ne_nil_of_mem (List.mem_filter.2 ⟨hp, by simp [hk]⟩)
  exact Option.isSome_iff_exists.1 (List.getLast?_isSome.2 hne)

theorem nameLookup_isSome_of_mem_nameKeys {protocols : List Rec} {k : String}
    (h : k ∈ nameKeys protocols) : ∃ p, nameLookup protocols k = some p := by
  obtain ⟨p, hp, hk⟩ := List.mem_map.1 (mem_dedupFirst.1 h)
  have hne : protocols.filter (fun p => nameKey p == k) ≠ [] :=
    List.ne_nil_of_mem (List.mem_filter.2 ⟨hp, by simp [hk]⟩)
  exact Option.isSome_iff_exists.1 (List.getLast?_isSome.2 hne)

/-! ### Shape lemmas for the two result builders -/

theorem mkNonParent_shape {p : Rec} {r : Res} (h : mkNonParent p = .ok r) :
    r.is_parent = false ∧ r.children = [] ∧
      p.slug = some r.slug ∧ p.name = some r.name ∧ p.category = r.category := by
  unfold mkNonParent at h
  split at h
  case h_1 s n hs hn => cases h; exact ⟨rfl, rfl, hs, hn, rfl⟩
  case h_2 => cases h

theorem buildParentResult_shape {protocols : List Rec} {ps : String} {r : Res}
    (h : buildParentResult protocols ps = .ok r) :
    r.slug = ps ∧ r.is_parent = true ∧
      childPairs (childrenOf protocols ps) = some r.children ∧
      r.name = deriveParentName (hyphenToSpace ps) (pyTitle (hyphenToSpace ps))
        (childrenOf protocols ps) ∧
      r.category = mostCommon1 (memberCats (childrenOf protocols ps)) := by
  unfold buildParentResult at h
  split at h
  case h_1 prs hprs => cases h; exact ⟨rfl, rfl, hprs, rfl, rfl⟩
  case h_2 => cases h

theorem childPairs_ne_nil {c : Rec} {cs : List Rec} {prs : List (String × String)}
    (h : childPairs (c :: cs) = some prs) : prs ≠ [] := by
  unfold childPairs at h
  split at h
  · obtain ⟨rest, _, hrest⟩ := Option.map_eq_some'.1 h
    rw [← hrest]; simp
  · cases h

/-- Every parent-shaped result of the resolver is the aggregator's output
for its own slug, and that slug has a non-empty member group. -/
theorem resolveCore_parent_source {protocols : List Rec} {u n : String} {r : Res}
    (h : resolveCore protocols u n = .ok r) (hp : r.is_parent = true) :
    buildParentResult protocols r.slug = .ok r ∧ childrenOf protocols r.slug ≠ [] := by
  unfold resolveCore at h
  split at h
  case h_1 p hp1 =>
    exact absurd hp (by simp [(mkNonParent_shape h).1])
  case h_2 =>
  split at h
  case h_1 p hp2 =>
    exact absurd hp (by simp [(mkNonParent_shape h).1])
  case h_2 =>
  split at h
  case isTrue hmem =>
    have hs := (buildParentResult_shape h).1
    rw [hs]
    exact ⟨h, childrenOf_ne_nil_of_mem_parentSlugsList (hs ▸ hmem)⟩
  case isFalse =>
  split at h
  case h_1 ps hfind =>
    have hs := (buildParentResult_shape h).1
    have hmem : ps ∈ parentSlugsList protocols := List.mem_of_find?_eq_some hfind
    rw [hs]
    exact ⟨h, childrenOf_ne_nil_of_mem_parentSlugsList (hs ▸ hmem)⟩
  case h_2 =>
  split at h
  case h_1 ps hpnm =>
    have hs := (buildParentResult_shape h).1
    have hmem : ps ∈ parentSlugsList protocols := pnm_value_mem_parentSlugsList hpnm
    rw [hs]
    exact ⟨h, childrenOf_ne_nil_of_mem_parentSlugsList (hs ▸ hmem)⟩
  case h_2 =>
  split at h
  case h_1 c hbest =>
    have hcand : c ∈ allCandidates protocols := by
      have hmem : c ∈ List.insertionSort (candBefore n) (qualifyingCands protocols n) := by
        unfold bestCand at hbest
        exact List.mem_of_mem_head? hbest
      have := (List.perm_insertionSort (candBefore n) (qualifyingCands protocols n)).mem_iff.1 hmem
      exact List.mem_of_mem_filter this
    unfold dispatchCand at h
    split at h
    case h_1 hk =>
      have hs := (buildParentResult_shape h).1
      have hmem : c.2.2 ∈ parentSlugsList protocols := (allCandidates_spec hcand).2.2 hk
      rw [hs]
      exact ⟨h, childrenOf_ne_nil_of_mem_parentSlugsList (hs ▸ hmem)⟩
    case h_2 hk =>
      split at h
      · exact absurd hp (by simp [(mkNonParent_shape h).1])
      · cases h
    case h_3 hk =>
      split at h
      · exact absurd hp (by simp [(mkNonParent_shape h).1])
      · cases h
  case h_2 =>
  split at h <;> cases h

theorem resolve_parent_source {protocols : List Rec} {u : String} {r : Res}
    (h : resolve protocols u = .ok r) (hp : r.is_parent = true) :
    buildParentResult protocols r.slug = .ok r ∧ childrenOf protocols r.slug ≠ [] :=
  resolveCore_parent_source h hp

/-- Every successful resolution comes from one of the two result builders. -/
theorem resolveCore_ok_cases {protocols : List Rec} {u n : String} {r : Res}
    (h : resolveCore protocols u n = .ok r) :
    (∃ p, mkNonParent p = .ok r) ∨ ∃ ps, buildParentResult protocols ps = .ok r := by
  unfold resolveCore at h
  split at h
  case h_1 p _ => exact Or.inl ⟨p, h⟩
  case h_2 =>
  split at h
  case h_1 p _ => exact Or.inl ⟨p, h⟩
  case h_2 =>
  split at h
  case isTrue => exact Or.inr ⟨n, h⟩
  case isFalse =>
  split at h
  case h_1 ps _ => exact Or.inr ⟨ps, h⟩
  case h_2 =>
  split at h
  case h_1 ps _ => exact Or.inr ⟨ps, h⟩
  case h_2 =>
  split at h
  case h_1 c _ =>
    unfold dispatchCand at h
    split at h
    case h_1 => exact Or.inr ⟨c.2.2, h⟩
    case h_2 =>
      split at h
      · exact Or.inl ⟨_, h⟩
      · cases h
    case h_3 =>
      split at h
      · exact Or.inl ⟨_, h⟩
      · cases h
  case h_2 =>
  split at h <;> cases h

/-- The display-name loop is the first member matching the spaced parent
slug, if any. -/
theorem deriveParentName_eq_find? (target deflt : String) (l : List Rec) :
    deriveParentName target deflt l =
      match l.find? (fun c => pyLower (baseName (c.name.getD "")) == target) with
      | some c => baseName (c.name.getD "")
      | none => deflt := by
  induction l with
  | nil => rfl
  | cons c cs ih =>
    by_cases hc : pyLower (baseName (c.name.getD "")) = target
    · rw [deriveParentName, if_pos hc, List.find?_cons_of_pos _ (by simp [hc])]
    · rw [deriveParentName, if_neg hc, List.find?_cons_of_neg _ (by simp [hc]), ih]

/-! ### Claim C1 — exact-slug tier -/

/-- C1, counterexample: the claim quantifies over every record with a
registry-unique slug and promises a successful resolution of the slug
itself (any case, any surrounding whitespace).  For the record with slug
`" x"` (registry-unique) the resolver normalises the input `" x"` to
`"x"`, which no longer matches the stored key `" x"`, and resolution
fails with `ProtocolNotFoundError`. -/
theorem claim1_exact_slug_cex :
    resolve [⟨some " x", some "N", none, none⟩] " x" = .error (.notFound " x" []) := by
  decide

/-- C1, amended: for a record `R` whose lowercased slug is registry-unique,
any input that strips and lowercases to `R`'s lowercased slug (in
particular any letter-case/whitespace variant of an already-trimmed slug)
resolves in the exact-slug tier to a non-parent result carrying `R`'s own
slug, name and category, with no children. -/
theorem claim1_exact_slug_amended (protocols : List Rec) (u : String) (R : Rec)
    (s n : String)
    (hR : R ∈ protocols) (hs : R.slug = some s) (hn : R.name = some n)
    (huniq : ∀ x ∈ protocols, slugKey x = pyLower s → x = R)
    (hu : pyLower (pyStrip u) = pyLower s) :
    resolve protocols u = .ok ⟨s, n, false, [], R.category⟩ := by
  have hkey : slugKey R = pyLower s := by simp [slugKey, hs]
  have hlook : slugLookup protocols (pyLower s) = some R :=
    getLast?_filter_of_unique _ _ _ hR (by simp [hkey])
      (fun x hx hpx => huniq x hx (by simpa using hpx))
  simp only [resolve, hu, resolveCore, hlook, mkNonParent, hs, hn]

theorem claim1_exact_slug_witness :
    resolve [⟨some "AaVe", some "Aave", some "Lending", none⟩] "  aAvE " =
      .ok ⟨"AaVe", "Aave", false, [], some "Lending"⟩ :=
  claim1_exact_slug_amended _ _ ⟨some "AaVe", some "Aave", some "Lending", none⟩
    "AaVe" "Aave" (by decide) rfl rfl (by decide) (by decide)

/-! ### Claim C4 — error containment -/

/-- C4: the spec says malformed records (missing `slug` or `name`) only
make a record unmatchable; but the return paths use bare `p["name"]` /
`p["slug"]` accesses, so a record with a slug and no name lets a
`KeyError` escape from `resolve_protocol` when its slug is looked up. -/
theorem claim4_keyerror_escapes :
    resolve [⟨some "aave", none, none, none⟩] "aave" = .error .keyErr := by
  decide

/-! ### Claim C5 — children invariant -/

/-- C5: a parent-shaped result has a non-empty `children` list equal to the
`(name, slug)` pairs of the records referencing its slug, in snapshot
order; a non-parent result has no children. -/
theorem claim5_children_invariant (protocols : List Rec) (u : String) (r : Res)
    (h : resolve protocols u = .ok r) :
    (r.is_parent = true →
      r.children ≠ [] ∧ childPairs (childrenOf protocols r.slug) = some r.children) ∧
      (r.is_parent = false → r.children = []) := by
  constructor
  · intro hp
    obtain ⟨hb, hne⟩ := resolve_parent_source h hp
    obtain ⟨_, _, hcp, _, _⟩ := buildParentResult_shape hb
    refine ⟨?_, hcp⟩
    cases hcl : childrenOf protocols r.slug with
    | nil => exact absurd hcl hne
    | cons c cs =>
      rw [hcl] at hcp
      exact childPairs_ne_nil hcp
  · intro hp
    rcases resolveCore_ok_cases h with ⟨p, hm⟩ | ⟨ps, hbp⟩
    · exact (mkNonParent_shape hm).2.1
    · have := (buildParentResult_shape hbp).2.1
      rw [this] at hp
      cases hp

theorem claim5_children_invariant_witness :
    ((⟨"uni", "Uni", true, [("Uni V2", "u2")], none⟩ : Res).is_parent = true →
      (⟨"uni", "Uni", true, [("Uni V2", "u2")], none⟩ : Res).children ≠ [] ∧
        childPairs (childrenOf [⟨some "u2", some "Uni V2", none, some "parent#uni"⟩]
            (⟨"uni", "Uni", true, [("Uni V2", "u2")], none⟩ : Res).slug) =
          some (⟨"uni", "Uni", true, [("Uni V2", "u2")], none⟩ : Res).children) ∧
      ((⟨"uni", "Uni", true, [("Uni V2", "u2")], none⟩ : Res).is_parent = false →
        (⟨"uni", "Uni", true, [("Uni V2", "u2")], none⟩ : Res).children = []) :=
  claim5_children_invariant [⟨some "u2", some "Uni V2", none, some "parent#uni"⟩]
    "uni" ⟨"uni", "Uni", true, [("Uni V2", "u2")], none⟩ (by decide)

/-! ### Claim C6 — parent display name -/

/-- C6: a parent-shaped result's display name is the title-cased spaced
slug by default, overridden by the version-stripped base name of the first
member whose lowercased base name equals the spaced slug. -/
theorem claim6_parent_display_name (protocols : List Rec) (u : String) (r : Res)
    (h : resolve protocols u = .ok r) (hp : r.is_parent = true) :
    r.name =
      match (childrenOf protocols r.slug).find?
          (fun c => pyLower (baseName (c.name.getD "")) == hyphenToSpace r.slug) with
      | some c => baseName (c.name.getD "")
      | none => pyTitle (hyphenToSpace r.slug) := by
  obtain ⟨hb, _⟩ := resolve_parent_source h hp
  obtain ⟨_, _, _, hname, _⟩ := buildParentResult_shape hb
  rw [hname, deriveParentName_eq_find?]

theorem claim6_parent_display_name_witness :
    (⟨"uni", "Uni", true, [("Uni V2", "u2")], none⟩ : Res).name =
      match (childrenOf [⟨some "u2", some "Uni V2", none, some "parent#uni"⟩]
          (⟨"uni", "Uni", true, [("Uni V2", "u2")], none⟩ : Res).slug).find?
          (fun c => pyLower (baseName (c.name.getD "")) ==
            hyphenToSpace (⟨"uni", "Uni", true, [("Uni V2", "u2")], none⟩ : Res).slug) with
      | some c => baseName (c.name.getD "")
      | none => pyTitle (hyphenToSpace
          (⟨"uni", "Uni", true, [("Uni V2", "u2")], none⟩ : Res).slug) :=
  claim6_parent_display_name [⟨some "u2", some "Uni V2", none, some "parent#uni"⟩]
    "uni" ⟨"uni", "Uni", true, [("Uni V2", "u2")], none⟩ (by decide) rfl

/-! ### Claim C7 — parent slug and its spaced form -/

/-- C7, counterexample: the claim promises that for every parent slug both
the slug and its spaced form resolve identically via the parent structural
tier.  When a record's own slug coincides with the parent slug, the exact
slug tier captures the hyphenated form but not the spaced one, and the two
results differ. -/
theorem claim7_parent_hyphen_cex :
    resolve [⟨some "foo-bar", some "X", none, some "parent#foo-bar"⟩] "foo-bar" =
        .ok ⟨"foo-bar", "X", false, [], none⟩ ∧
      resolve [⟨some "foo-bar", some "X", none, some "parent#foo-bar"⟩] "foo bar" =
        .ok ⟨"foo-bar", "Foo Bar", true, [("X", "foo-bar")], none⟩ ∧
      (⟨"foo-bar", "X", false, [], none⟩ : Res) ≠
        ⟨"foo-bar", "Foo Bar", true, [("X", "foo-bar")], none⟩ := by
  refine ⟨by decide, by decide, by decide⟩

/-- C7, amended: for a parent slug `P` (lowercase and trimmed, with its
spaced form also trimmed) such that neither `P` nor its spaced form is
captured by the exact slug or name tiers, the spaced form is not a
different parent slug, and no other parent slug has the same spaced form,
`resolve(P)` and `resolve(P.replace("-", " "))` both return the parent
structural result for `P`. -/
theorem claim7_parent_hyphen_amended (protocols : List Rec) (P : String)
    (hP : P ∈ parentSlugsList protocols)
    (hlowP : pyLower P = P) (hstripP : pyStrip P = P)
    (hlowS : pyLower (hyphenToSpace P) = hyphenToSpace P)
    (hstripS : pyStrip (hyphenToSpace P) = hyphenToSpace P)
    (h1 : slugLookup protocols P = none) (h2 : nameLookup protocols P = none)
    (h3 : slugLookup protocols (hyphenToSpace P) = none)
    (h4 : nameLookup protocols (hyphenToSpace P) = none)
    (h5 : hyphenToSpace P = P ∨ hyphenToSpace P ∉ parentSlugsList protocols)
    (h6 : ∀ ps ∈ parentSlugsList protocols, hyphenToSpace ps = hyphenToSpace P → ps = P) :
    resolve protocols P = buildParentResult protocols P ∧
      resolve protocols (hyphenToSpace P) = buildParentResult protocols P := by
  have hpart1 : resolve protocols P = buildParentResult protocols P := by
    simp only [resolve, hstripP, hlowP, resolveCore, h1, h2, if_pos hP]
  refine ⟨hpart1, ?_⟩
  rcases h5 with heq | hnot
  · rw [heq]; exact hpart1
  · have hfind : (parentSlugsList protocols).find?
        (fun ps => hyphenToSpace ps == hyphenToSpace P) = some P := by
      have hsome : ((parentSlugsList protocols).find?
          (fun ps => hyphenToSpace ps == hyphenToSpace P)).isSome := by
        rw [List.find?_isSome]
        exact ⟨P, hP, by simp⟩
      obtain ⟨x, hx⟩ := Option.isSome_iff_exists.1 hsome
      have hxp : hyphenToSpace x = hyphenToSpace P := by
        have := List.find?_some hx
        simpa using this
      rw [hx, h6 x (List.mem_of_find?_eq_some hx) hxp]
    simp only [resolve, hstripS, hlowS, resolveCore, h3, h4, if_neg hnot, hfind]

theorem claim7_parent_hyphen_witness :
    resolve [⟨some "c1", some "Child", none, some "parent#foo-bar"⟩] "foo-bar" =
        buildParentResult [⟨some "c1", some "Child", none, some "parent#foo-bar"⟩]
          "foo-bar" ∧
      resolve [⟨some "c1", some "Child", none, some "parent#foo-bar"⟩]
          (hyphenToSpace "foo-bar") =
        buildParentResult [⟨some "c1", some "Child", none, some "parent#foo-bar"⟩]
          "foo-bar" :=
  claim7_parent_hyphen_amended [⟨some "c1", some "Child", none, some "parent#foo-bar"⟩]
    "foo-bar" (by decide) (by decide) (by decide) (by decide) (by decide)
    (by decide) (by decide) (by decide) (by decide) (by decide) (by decide)

/-! ### Claim C9 — exact-name tier -/

/-- C9, counterexample: the claim only excepts records sharing the
lowercased name, but the exact-slug tier runs first: here record
`{slug: "alpha", name: "beta"}` has a registry-unique lowercased name, yet
`resolve("beta")` returns the record whose slug is `"beta"`, with a
different display name. -/
theorem claim9_exact_name_cex :
    resolve [⟨some "alpha", some "beta", none, none⟩,
        ⟨some "beta", some "gamma", none, none⟩] "beta" =
      .ok ⟨"beta", "gamma", false, [], none⟩ := by
  decide

/-- C9, amended: for a record `R` with display name `nm`, provided the
lowercased name is not also a key of the slug index, any input stripping
and lowercasing to `nm.lower()` resolves in the exact-name tier to the
last record in snapshot order holding that lowercased name (last write
wins); if no other record shares the lowercased name, that record is `R`
itself. -/
theorem claim9_exact_name_amended (protocols : List Rec) (u : String) (R : Rec)
    (nm : String)
    (hR : R ∈ protocols) (hn : R.name = some nm)
    (hu : pyLower (pyStrip u) = pyLower nm)
    (hslug : slugLookup protocols (pyLower nm) = none)
    (L : Rec) (ls ln : String)
    (hL : nameLookup protocols (pyLower nm) = some L)
    (hLs : L.slug = some ls) (hLn : L.name = some ln) :
    resolve protocols u = .ok ⟨ls, ln, false, [], L.category⟩ ∧
      ((∀ x ∈ protocols, nameKey x = pyLower nm → x = R) → L = R) := by
  constructor
  · simp only [resolve, hu, resolveCore, hslug, hL, mkNonParent, hLs, hLn]
  · intro huniq
    have hmem : L ∈ protocols.filter (fun p => nameKey p == pyLower nm) :=
      List.mem_of_mem_getLast? hL
    obtain ⟨hLp, hLk⟩ := List.mem_filter.1 hmem
    exact huniq L hLp (by simpa using hLk)

theorem claim9_exact_name_witness :
    resolve [⟨some "a1", some "Beta", none, none⟩,
          ⟨some "a2", some "BETA", none, none⟩] "beta" =
        .ok ⟨"a2", "BETA", false, [], none⟩ ∧
      ((∀ x ∈ [(⟨some "a1", some "Beta", none, none⟩ : Rec),
          ⟨some "a2", some "BETA", none, none⟩],
        nameKey x = pyLower "Beta" → x = ⟨some "a1", some "Beta", none, none⟩) →
        (⟨some "a2", some "BETA", none, none⟩ : Rec) =
          ⟨some "a1", some "Beta", none, none⟩) :=
  claim9_exact_name_amended
    [⟨some "a1", some "Beta", none, none⟩, ⟨some "a2", some "BETA", none, none⟩]
    "beta" ⟨some "a1", some "Beta", none, none⟩ "Beta" (by decide) rfl (by decide)
    (by decide) ⟨some "a2", some "BETA", none, none⟩ "a2" "BETA" (by decide) rfl rfl

/-! ### Lemmas about the ratio against an empty input -/

theorem foldl_fixed {α β : Type} : ∀ (l : List β) (a : α), l.foldl (fun x _ => x) a = a
  | [], _ => rfl
  | _ :: bs, a => foldl_fixed bs a

theorem longestMatch_nil_right (a : List Char) : longestMatch a [] = (0, 0, 0) := by
  unfold longestMatch
  simp only [List.length_nil, List.range_zero, List.foldl_nil]
  exact foldl_fixed _ _

theorem matchedSizeF_nil_right : ∀ (fuel : Nat) (a : List Char),
    matchedSizeF fuel a [] = 0
  | 0, _ => rfl
  | fuel + 1, a => by
    unfold matchedSizeF
    rw [longestMatch_nil_right]
    rfl

theorem matchedSize_nil_right (a : List Char) : matchedSize a [] = 0 :=
  matchedSizeF_nil_right _ _

theorem string_ne_empty_iff {s : String} : s ≠ "" ↔ s.data ≠ [] := by
  constructor
  · intro h hc
    apply h
    cases s with
    | mk d => cases hc; rfl
  · intro h hc
    rw [hc] at h
    exact h rfl

theorem pyLower_ne_empty {s : String} (h : s ≠ "") : pyLower s ≠ "" := by
  rw [string_ne_empty_iff] at h ⊢
  simp [pyLower, h]

theorem hyphenToSpace_ne_empty {s : String} (h : s ≠ "") : hyphenToSpace s ≠ "" := by
  rw [string_ne_empty_iff] at h ⊢
  simp [hyphenToSpace, h]

/-- A non-empty candidate key has ratio `0` against the empty normalised
input, which fails any positive cutoff. -/
theorem ratioGeB_empty_input {k : String} (h : k ≠ "") {num den : Nat}
    (hnum : 1 ≤ num) : ratioGeB (ratPair k "") num den = false := by
  have hd : k.data ≠ [] := string_ne_empty_iff.1 h
  have hT : k.data.length ≠ 0 := fun h0 => hd (List.length_eq_zero.1 h0)
  unfold ratPair ratioGeB
  simp only [show ("" : String).data = [] from rfl, List.length_nil, Nat.add_zero]
  rw [if_neg hT]
  simp only [matchedSize_nil_right, Nat.mul_zero, Nat.zero_mul,
    decide_eq_false_iff_not]
  intro hc
  have h0 : num * k.data.length = 0 := Nat.le_zero.1 hc
  rcases Nat.mul_eq_zero.1 h0 with h1 | h1
  · omega
  · exact hT h1

/-! ### Provenance of index keys -/

theorem parentSlugsList_mem_spec {protocols : List Rec} {ps : String}
    (h : ps ∈ parentSlugsList protocols) :
    ∃ p ∈ protocols, parentRefSlug p = some ps :=
  List.mem_filterMap.1 (mem_dedupFirst.1 h)

theorem parentNamePairs_mem_spec {protocols : List Rec} {e : String × String}
    (h : e ∈ parentNamePairs protocols) :
    ∃ c ∈ protocols, ∃ ps, parentRefSlug c = some ps ∧
      e = (pyLower (baseName (c.name.getD "")), ps) := by
  obtain ⟨grp, hgrp, hegrp⟩ := List.mem_flatten.1 h
  obtain ⟨ps', _, rfl⟩ := List.mem_map.1 hgrp
  obtain ⟨c, hc, hce⟩ := List.mem_map.1 hegrp
  obtain ⟨hcp, hcref⟩ := List.mem_filter.1 hc
  refine ⟨c, hcp, ps', by simpa using hcref, hce.symm⟩

theorem allCandidates_key_mem {protocols : List Rec} {e : String × CKind × String}
    (h : e ∈ allCandidates protocols) :
    e.1 ∈ slugKeys protocols ∨ e.1 ∈ nameKeys protocols ∨
      e.1 ∈ parentSlugsList protocols ∨ e.1 ∈ pnmKeys protocols := by
  rcases mem_foldl_candInsert h with hm | hm
  · cases hm
  · unfold candEntries at hm
    rcases List.mem_append.1 hm with hm | hm4
    · rcases List.mem_append.1 hm with hm | hm3
      · rcases List.mem_append.1 hm with hm1 | hm2
        · obtain ⟨k, hk, rfl⟩ := List.mem_map.1 hm1
          exact Or.inl hk
        · obtain ⟨k, hk, rfl⟩ := List.mem_map.1 hm2
          exact Or.inr (Or.inl hk)
      · obtain ⟨k, hk, rfl⟩ := List.mem_map.1 hm3
        exact Or.inr (Or.inr (Or.inl hk))
    · obtain ⟨k, hk, he⟩ := List.mem_filterMap.1 hm4
      obtain ⟨ps, _, rfl⟩ := Option.map_eq_some'.1 he
      exact Or.inr (Or.inr (Or.inr hk))

/-! ### Claim C10 — empty and whitespace-only input -/

/-- C10, counterexample: the claim's hypotheses (non-empty slugs and
names) do not rule out a degenerate backreference `"parent#"`, which puts
the empty string into `parent_slugs`; the empty normalised input then hits
the parent structural tier and resolution succeeds instead of raising. -/
theorem claim10_empty_input_cex :
    resolve [⟨some "a", some "B", none, some "parent#"⟩] "" =
      .ok ⟨"", "", true, [("B", "a")], none⟩ := by
  decide

/-- C10, amended: if additionally no parent backreference has an empty
remainder and no group member's version-stripped base name is empty, an
input that strips to the empty string always fails with
`ProtocolNotFound` carrying the original input and no suggestions. -/
theorem claim10_empty_input_amended (protocols : List Rec) (u : String)
    (hu : pyStrip u = "")
    (hwf : ∀ p ∈ protocols, p.slug.getD "" ≠ "" ∧ p.name.getD "" ≠ "")
    (hpr : ∀ p ∈ protocols, parentRefSlug p ≠ some "")
    (hbase : ∀ p ∈ protocols, ∀ ps, parentRefSlug p = some ps →
      baseName (p.name.getD "") ≠ "") :
    resolve protocols u = .error (.notFound u []) := by
  have hnorm : pyLower (pyStrip u) = "" := by rw [hu]; rfl
  have hps_ne : ∀ ps ∈ parentSlugsList protocols, ps ≠ "" := by
    intro ps hps hc
    obtain ⟨p, hp, hpref⟩ := parentSlugsList_mem_spec hps
    exact hpr p hp (hc ▸ hpref)
  have h1 : slugLookup protocols "" = none := by
    unfold slugLookup
    have : protocols.filter (fun p => slugKey p == "") = [] := by
      rw [List.filter_eq_nil_iff]
      intro p hp
      simp only [beq_iff_eq]
      exact pyLower_ne_empty (hwf p hp).1
    rw [this]
    rfl
  have h2 : nameLookup protocols "" = none := by
    unfold nameLookup
    have : protocols.filter (fun p => nameKey p == "") = [] := by
      rw [List.filter_eq_nil_iff]
      intro p hp
      simp only [beq_iff_eq]
      exact pyLower_ne_empty (hwf p hp).2
    rw [this]
    rfl
  have h3 : ("" : String) ∉ parentSlugsList protocols := fun hc => hps_ne _ hc rfl
  have h4 : (parentSlugsList protocols).find? (fun ps => hyphenToSpace ps == "") = none := by
    rw [List.find?_eq_none]
    intro ps hps
    simp only [beq_iff_eq]
    exact hyphenToSpace_ne_empty (hps_ne ps hps)
  have h5 : pnmLookup protocols "" = none := by
    unfold pnmLookup
    have : (parentNamePairs protocols).filter (fun e => e.1 == "") = [] := by
      rw [List.filter_eq_nil_iff]
      intro e he
      obtain ⟨c, hc, ps, hcref, rfl⟩ := parentNamePairs_mem_spec he
      simp only [beq_iff_eq]
      exact pyLower_ne_empty (hbase c hc ps hcref)
    rw [this]
    rfl
  have h6 : bestCand protocols "" = none := by
    unfold bestCand
    have hq : qualifyingCands protocols "" = [] := by
      unfold qualifyingCands
      rw [List.filter_eq_nil_iff]
      intro e he
      have hne : e.1 ≠ "" := by
        rcases allCandidates_key_mem he with hk | hk | hk | hk
        · obtain ⟨p, hp, heq⟩ := List.mem_map.1 (mem_dedupFirst.1 hk)
          rw [← heq]
          exact pyLower_ne_empty (hwf p hp).1
        · obtain ⟨p, hp, heq⟩ := List.mem_map.1 (mem_dedupFirst.1 hk)
          rw [← heq]
          exact pyLower_ne_empty (hwf p hp).2
        · exact hps_ne _ hk
        · obtain ⟨pr, hpr', heq⟩ := List.mem_map.1 (mem_dedupFirst.1 hk)
          rw [← heq]
          obtain ⟨c, hc, ps, hcref, hpre⟩ := parentNamePairs_mem_spec hpr'
          rw [hpre]
          exact pyLower_ne_empty (hbase c hc ps hcref)
      rw [ratioGeB_empty_input hne (by omega)]
      simp
    rw [hq]
    rfl
  have h7 : suggestionKeys protocols "" = [] := by
    unfold suggestionKeys
    have : (protocols.map (fun p => pyLower (p.name.getD ""))).filter
        (fun nm => ratioGeB (ratPair nm "") 2 5) = [] := by
      rw [List.filter_eq_nil_iff]
      intro nm hnm
      obtain ⟨p, hp, rfl⟩ := List.mem_map.1 hnm
      rw [ratioGeB_empty_input (pyLower_ne_empty (hwf p hp).2) (by omega)]
      simp
    rw [this]
    rfl
  simp only [resolve, hnorm, resolveCore, h1, h2, if_neg h3, h4, h5, h6, h7,
    mapBackSuggestions]

theorem claim10_empty_input_witness :
    resolve [⟨some "lido", some "Lido", some "Liquid Staking", none⟩] "   " =
      .error (.notFound "   " []) :=
  claim10_empty_input_amended _ _ (by decide) (by decide) (by decide) (by decide)

/-! ### The majority vote of `Counter.most_common(1)` -/

theorem pairwise_idxOf_dedupFirstAux :
    ∀ (l seen : List String),
      List.Pairwise (fun a b => idxOf a l < idxOf b l) (dedupFirstAux seen l) := by
  intro l
  induction l with
  | nil => intro seen; rw [dedupFirstAux]; exact List.Pairwise.nil
  | cons x xs ih =>
    intro seen
    cases hc : seen.contains x with
    | true =>
      rw [dedupFirstAux, if_pos hc]
      refine (ih seen).imp_of_mem ?_
      intro a b ha hb hab
      have hax : a ≠ x := by
        intro h'
        have := (mem_dedupFirstAux.1 ha).2
        rw [h', hc] at this
        cases this
      have hbx : b ≠ x := by
        intro h'
        have := (mem_dedupFirstAux.1 hb).2
        rw [h', hc] at this
        cases this
      rw [idxOf, if_neg (fun h' => hax h'.symm), idxOf, if_neg (fun h' => hbx h'.symm)]
      omega
    | false =>
      rw [dedupFirstAux, if_neg (by rw [hc]; exact Bool.false_ne_true)]
      refine List.pairwise_cons.2 ⟨?_, ?_⟩
      · intro b hb
        have hbx : b ≠ x := by
          intro h'
          have := (mem_dedupFirstAux.1 hb).2
          rw [h', List.contains_cons] at this
          simp at this
        rw [idxOf, if_pos rfl, idxOf, if_neg (fun h' => hbx h'.symm)]
        omega
      · refine (ih (x :: seen)).imp_of_mem ?_
        intro a b ha hb hab
        have hax : a ≠ x := by
          intro h'
          have := (mem_dedupFirstAux.1 ha).2
          rw [h', List.contains_cons] at this
          simp at this
        have hbx : b ≠ x := by
          intro h'
          have := (mem_dedupFirstAux.1 hb).2
          rw [h', List.contains_cons] at this
          simp at this
        rw [idxOf, if_neg (fun h' => hax h'.symm), idxOf, if_neg (fun h' => hbx h'.symm)]
        omega

/-- Elements of the counter-key list are ordered by first occurrence. -/
theorem dedupFirst_before (cats : List String) {l₁ l₂ : List String} {m v : String}
    (hdec : dedupFirst cats = l₁ ++ m :: l₂) (hv : v ∈ l₂) :
    idxOf m cats < idxOf v cats := by
  have hp : List.Pairwise (fun a b => idxOf a cats < idxOf b cats) (dedupFirst cats) :=
    pairwise_idxOf_dedupFirstAux cats []
  rw [hdec] at hp
  exact (List.pairwise_cons.1 (List.pairwise_append.1 hp).2.1).1 v hv

/-- The `most_common(1)` scan keeps a maximal-count key and reaches it
without passing any key of equal count. -/
theorem pickMax_mem_ge (xs : List String) :
    ∀ (rest : List String) (b : String),
      (pickMax xs b rest = b ∨ pickMax xs b rest ∈ rest) ∧
        countOcc b xs ≤ countOcc (pickMax xs b rest) xs ∧
        (∀ v ∈ rest, countOcc v xs ≤ countOcc (pickMax xs b rest) xs) := by
  intro rest
  induction rest with
  | nil => intro b; exact ⟨Or.inl rfl, le_refl _, by simp⟩
  | cons v' rest' ih =>
    intro b
    rw [pickMax]
    by_cases h : countOcc b xs < countOcc v' xs
    · rw [if_pos h]
      obtain ⟨hm, hge, hall⟩ := ih v'
      refine ⟨?_, le_trans (le_of_lt h) hge, ?_⟩
      · rcases hm with he | hm
        · exact Or.inr (by simp [he])
        · exact Or.inr (by simp [hm])
      · intro v hv
        rcases List.mem_cons.1 hv with rfl | hv
        · exact hge
        · exact hall v hv
    · rw [if_neg h]
      obtain ⟨hm, hge, hall⟩ := ih b
      refine ⟨?_, hge, ?_⟩
      · rcases hm with he | hm
        · exact Or.inl he
        · exact Or.inr (by simp [hm])
      · intro v hv
        rcases List.mem_cons.1 hv with rfl | hv
        · exact le_trans (Nat.le_of_not_lt h) hge
        · exact hall v hv

theorem pickMax_decomp (xs : List String) :
    ∀ (rest : List String) (b : String),
      ∃ l₁ l₂, b :: rest = l₁ ++ pickMax xs b rest :: l₂ ∧
        ∀ v ∈ l₁, countOcc v xs < countOcc (pickMax xs b rest) xs := by
  intro rest
  induction rest with
  | nil => intro b; exact ⟨[], [], rfl, by simp⟩
  | cons v' rest' ih =>
    intro b
    rw [pickMax]
    by_cases h : countOcc b xs < countOcc v' xs
    · rw [if_pos h]
      obtain ⟨l₁, l₂, hdec, hlt⟩ := ih v'
      refine ⟨b :: l₁, l₂, by rw [List.cons_append, ← hdec], ?_⟩
      intro v hv
      rcases List.mem_cons.1 hv with rfl | hv
      · exact lt_of_lt_of_le h (pickMax_mem_ge xs rest' v').2.1
      · exact hlt v hv
    · rw [if_neg h]
      obtain ⟨l₁, l₂, hdec, hlt⟩ := ih b
      cases l₁ with
      | nil =>
        have hb : b = pickMax xs b rest' := by
          have := congrArg (fun l => List.head? l) hdec
          simpa using this
        have hrest : rest' = l₂ := by
          have := congrArg (fun l => List.tail l) hdec
          simpa using this
        refine ⟨[], v' :: rest', ?_, by simp⟩
        rw [List.nil_append, ← hb]
      | cons a l₁' =>
        rw [List.cons_append, List.cons.injEq] at hdec
        obtain ⟨hba, hrest⟩ := hdec
        have hblt : countOcc b xs < countOcc (pickMax xs b rest') xs := by
          have hthis := hlt a (by simp)
          rw [← hba] at hthis
          exact hthis
        refine ⟨b :: v' :: l₁', l₂, ?_, ?_⟩
        · rw [List.cons_append, List.cons_append, ← hrest]
        · intro v hv
          rcases List.mem_cons.1 hv with rfl | hv
          · exact hblt
          · rcases List.mem_cons.1 hv with rfl | hv
            · exact lt_of_le_of_lt (Nat.le_of_not_lt h) hblt
            · exact hlt v (by simp [hv])

theorem dedupFirst_ne_nil {cats : List String} (hne : cats ≠ []) :
    dedupFirst cats ≠ [] := by
  cases cats with
  | nil => exact absurd rfl hne
  | cons c cs =>
    intro hc
    have : c ∈ dedupFirst (c :: cs) := mem_dedupFirst.2 (by simp)
    rw [hc] at this
    cases this

/-- `Counter(cats).most_common(1)` returns a category of maximal count, and
on count ties the one whose first occurrence in `cats` is earliest. -/
theorem mostCommon1_spec {cats : List String} (hne : cats ≠ []) :
    ∃ m, mostCommon1 cats = some m ∧ m ∈ cats ∧
      (∀ v ∈ cats, countOcc v cats ≤ countOcc m cats) ∧
      (∀ v ∈ cats, countOcc v cats = countOcc m cats →
        idxOf m cats ≤ idxOf v cats) := by
  cases hdf : dedupFirst cats with
  | nil => exact absurd hdf (dedupFirst_ne_nil hne)
  | cons f rest =>
    refine ⟨pickMax cats f rest, ?_, ?_, ?_, ?_⟩
    · rw [mostCommon1, hdf]
    · have hmem : pickMax cats f rest ∈ f :: rest := by
        rcases (pickMax_mem_ge cats rest f).1 with he | hm
        · rw [he]; exact List.mem_cons_self _ _
        · exact List.mem_cons_of_mem _ hm
      rw [← hdf] at hmem
      exact mem_dedupFirst.1 hmem
    · intro v hv
      have hvdf : v ∈ f :: rest := hdf ▸ mem_dedupFirst.2 hv
      obtain ⟨_, hge, hall⟩ := pickMax_mem_ge cats rest f
      rcases List.mem_cons.1 hvdf with rfl | hv'
      · exact hge
      · exact hall v hv'
    · intro v hv hcnt
      obtain ⟨l₁, l₂, hdec, hlt⟩ := pickMax_decomp cats rest f
      have hvdf : v ∈ f :: rest := hdf ▸ mem_dedupFirst.2 hv
      rw [hdec] at hvdf
      rcases List.mem_append.1 hvdf with hv1 | hv2
      · exact absurd hcnt (by have := hlt v hv1; omega)
      · rcases List.mem_cons.1 hv2 with rfl | hv2
        · exact le_refl _
        · exact le_of_lt (dedupFirst_before cats (by rw [hdf, hdec]) hv2)

/-! ### Claim C3 — parent category by majority vote -/

/-- C3: a parent-shaped result's category is a majority value of the
members' non-empty categories (maximal count; on ties the value first
encountered when scanning members in snapshot order), and is absent when
no member supplies one. -/
theorem claim3_parent_category (protocols : List Rec) (u : String) (r : Res)
    (h : resolve protocols u = .ok r) (hp : r.is_parent = true) :
    (memberCats (childrenOf protocols r.slug) = [] → r.category = none) ∧
      (memberCats (childrenOf protocols r.slug) ≠ [] →
        ∃ m, r.category = some m ∧
          m ∈ memberCats (childrenOf protocols r.slug) ∧
          (∀ v ∈ memberCats (childrenOf protocols r.slug),
            countOcc v (memberCats (childrenOf protocols r.slug)) ≤
              countOcc m (memberCats (childrenOf protocols r.slug))) ∧
          (∀ v ∈ memberCats (childrenOf protocols r.slug),
            countOcc v (memberCats (childrenOf protocols r.slug)) =
              countOcc m (memberCats (childrenOf protocols r.slug)) →
              idxOf m (memberCats (childrenOf protocols r.slug)) ≤
                idxOf v (memberCats (childrenOf protocols r.slug)))) := by
  obtain ⟨hb, _⟩ := resolve_parent_source h hp
  obtain ⟨_, _, _, _, hcat⟩ := buildParentResult_shape hb
  constructor
  · intro hnil
    rw [hcat, hnil]
    rfl
  · intro hne
    obtain ⟨m, hm, hmem, hmax, htie⟩ := mostCommon1_spec hne
    exact ⟨m, by rw [hcat, hm], hmem, hmax, htie⟩

theorem claim3_parent_category_witness :
    (memberCats (childrenOf
        [⟨some "c1", some "A1", some "DEX", some "parent#p"⟩,
         ⟨some "c2", some "A2", some "Lending", some "parent#p"⟩,
         ⟨some "c3", some "A3", some "Lending", some "parent#p"⟩,
         ⟨some "c4", some "A4", some "DEX", some "parent#p"⟩]
        (⟨"p", "P", true, [("A1", "c1"), ("A2", "c2"), ("A3", "c3"), ("A4", "c4")],
          some "DEX"⟩ : Res).slug) = [] →
      (⟨"p", "P", true, [("A1", "c1"), ("A2", "c2"), ("A3", "c3"), ("A4", "c4")],
        some "DEX"⟩ : Res).category = none) ∧
      (memberCats (childrenOf
          [⟨some "c1", some "A1", some "DEX", some "parent#p"⟩,
           ⟨some "c2", some "A2", some "Lending", some "parent#p"⟩,
           ⟨some "c3", some "A3", some "Lending", some "parent#p"⟩,
           ⟨some "c4", some "A4", some "DEX", some "parent#p"⟩]
          (⟨"p", "P", true, [("A1", "c1"), ("A2", "c2"), ("A3", "c3"), ("A4", "c4")],
            some "DEX"⟩ : Res).slug) ≠ [] →
        ∃ m, (⟨"p", "P", true, [("A1", "c1"), ("A2", "c2"), ("A3", "c3"), ("A4", "c4")],
            some "DEX"⟩ : Res).category = some m ∧
          m ∈ memberCats (childrenOf
            [⟨some "c1", some "A1", some "DEX", some "parent#p"⟩,
             ⟨some "c2", some "A2", some "Lending", some "parent#p"⟩,
             ⟨some "c3", some "A3", some "Lending", some "parent#p"⟩,
             ⟨some "c4", some "A4", some "DEX", some "parent#p"⟩]
            (⟨"p", "P", true, [("A1", "c1"), ("A2", "c2"), ("A3", "c3"), ("A4", "c4")],
              some "DEX"⟩ : Res).slug) ∧
          (∀ v ∈ memberCats (childrenOf
              [⟨some "c1", some "A1", some "DEX", some "parent#p"⟩,
               ⟨some "c2", some "A2", some "Lending", some "parent#p"⟩,
               ⟨some "c3", some "A3", some "Lending", some "parent#p"⟩,
               ⟨some "c4", some "A4", some "DEX", some "parent#p"⟩]
              (⟨"p", "P", true, [("A1", "c1"), ("A2", "c2"), ("A3", "c3"), ("A4", "c4")],
                some "DEX"⟩ : Res).slug),
            countOcc v (memberCats (childrenOf
              [⟨some "c1", some "A1", some "DEX", some "parent#p"⟩,
               ⟨some "c2", some "A2", some "Lending", some "parent#p"⟩,
               ⟨some "c3", some "A3", some "Lending", some "parent#p"⟩,
               ⟨some "c4", some "A4", some "DEX", some "parent#p"⟩]
              (⟨"p", "P", true, [("A1", "c1"), ("A2", "c2"), ("A3", "c3"), ("A4", "c4")],
                some "DEX"⟩ : Res).slug)) ≤
              countOcc m (memberCats (childrenOf
                [⟨some "c1", some "A1", some "DEX", some "parent#p"⟩,
                 ⟨some "c2", some "A2", some "Lending", some "parent#p"⟩,
                 ⟨some "c3", some "A3", some "Lending", some "parent#p"⟩,
                 ⟨some "c4", some "A4", some "DEX", some "parent#p"⟩]
                (⟨"p", "P", true, [("A1", "c1"), ("A2", "c2"), ("A3", "c3"), ("A4", "c4")],
                  some "DEX"⟩ : Res).slug))) ∧
          (∀ v ∈ memberCats (childrenOf
              [⟨some "c1", some "A1", some "DEX", some "parent#p"⟩,
               ⟨some "c2", some "A2", some "Lending", some "parent#p"⟩,
               ⟨some "c3", some "A3", some "Lending", some "parent#p"⟩,
               ⟨some "c4", some "A4", some "DEX", some "parent#p"⟩]
              (⟨"p", "P", true, [("A1", "c1"), ("A2", "c2"), ("A3", "c3"), ("A4", "c4")],
                some "DEX"⟩ : Res).slug),
            countOcc v (memberCats (childrenOf
              [⟨some "c1", some "A1", some "DEX", some "parent#p"⟩,
               ⟨some "c2", some "A2", some "Lending", some "parent#p"⟩,
               ⟨some "c3", some "A3", some "Lending", some "parent#p"⟩,
               ⟨some "c4", some "A4", some "DEX", some "parent#p"⟩]
              (⟨"p", "P", true, [("A1", "c1"), ("A2", "c2"), ("A3", "c3"), ("A4", "c4")],
                some "DEX"⟩ : Res).slug)) =
              countOcc m (memberCats (childrenOf
                [⟨some "c1", some "A1", some "DEX", some "parent#p"⟩,
                 ⟨some "c2", some "A2", some "Lending", some "parent#p"⟩,
                 ⟨some "c3", some "A3", some "Lending", some "parent#p"⟩,
                 ⟨some "c4", some "A4", some "DEX", some "parent#p"⟩]
                (⟨"p", "P", true, [("A1", "c1"), ("A2", "c2"), ("A3", "c3"), ("A4", "c4")],
                  some "DEX"⟩ : Res).slug)) →
              idxOf m (memberCats (childrenOf
                [⟨some "c1", some "A1", some "DEX", some "parent#p"⟩,
                 ⟨some "c2", some "A2", some "Lending", some "parent#p"⟩,
                 ⟨some "c3", some "A3", some "Lending", some "parent#p"⟩,
                 ⟨some "c4", some "A4", some "DEX", some "parent#p"⟩]
                (⟨"p", "P", true, [("A1", "c1"), ("A2", "c2"), ("A3", "c3"), ("A4", "c4")],
                  some "DEX"⟩ : Res).slug)) ≤
                idxOf v (memberCats (childrenOf
                  [⟨some "c1", some "A1", some "DEX", some "parent#p"⟩,
                   ⟨some "c2", some "A2", some "Lending", some "parent#p"⟩,
                   ⟨some "c3", some "A3", some "Lending", some "parent#p"⟩,
                   ⟨some "c4", some "A4", some "DEX", some "parent#p"⟩]
                  (⟨"p", "P", true, [("A1", "c1"), ("A2", "c2"), ("A3", "c3"), ("A4", "c4")],
                    some "DEX"⟩ : Res).slug)))) :=
  claim3_parent_category
    [⟨some "c1", some "A1", some "DEX", some "parent#p"⟩,
     ⟨some "c2", some "A2", some "Lending", some "parent#p"⟩,
     ⟨some "c3", some "A3", some "Lending", some "parent#p"⟩,
     ⟨some "c4", some "A4", some "DEX", some "parent#p"⟩]
    "p"
    ⟨"p", "P", true, [("A1", "c1"), ("A2", "c2"), ("A3", "c3"), ("A4", "c4")], some "DEX"⟩
    (by decide) rfl

/-! ### The `nlargest` tuple order -/

theorem charsLtB_trans : ∀ {a b c : List Char},
    charsLtB a b = true → charsLtB b c = true → charsLtB a c = true := by
  intro a
  induction a with
  | nil =>
    intro b c hab hbc
    cases b with
    | nil => cases hab
    | cons y ys =>
      cases c with
      | nil => cases hbc
      | cons z zs => rfl
  | cons x xs ih =>
    intro b c hab hbc
    cases b with
    | nil => cases hab
    | cons y ys =>
      cases c with
      | nil => cases hbc
      | cons z zs =>
        rw [charsLtB] at hab hbc ⊢
        by_cases h1 : x < y
        · by_cases h2 : y < z
          · rw [if_pos (lt_trans h1 h2)]
          · by_cases h3 : z < y
            · rw [if_neg h2, if_pos h3] at hbc; cases hbc
            · have hyz : y = z := le_antisymm (not_lt.1 h3) (not_lt.1 h2)
              rw [if_pos (hyz ▸ h1)]
        · by_cases h1' : y < x
          · rw [if_neg h1, if_pos h1'] at hab; cases hab
          · have hxy : x = y := le_antisymm (not_lt.1 h1') (not_lt.1 h1)
            subst hxy
            rw [if_neg h1, if_neg h1'] at hab
            by_cases h2 : x < z
            · rw [if_pos h2]
            · by_cases h3 : z < x
              · rw [if_neg h2, if_pos h3] at hbc; cases hbc
              · rw [if_neg h2, if_neg h3] at hbc ⊢
                exact ih hab hbc

theorem charsLtB_tricho : ∀ (a b : List Char),
    charsLtB a b = true ∨ charsLtB b a = true ∨ a = b := by
  intro a
  induction a with
  | nil =>
    intro b
    cases b with
    | nil => exact Or.inr (Or.inr rfl)
    | cons y ys => exact Or.inl rfl
  | cons x xs ih =>
    intro b
    cases b with
    | nil => exact Or.inr (Or.inl rfl)
    | cons y ys =>
      rcases lt_trichotomy x y with h | h | h
      · left; rw [charsLtB, if_pos h]
      · subst h
        rcases ih ys with h' | h' | h'
        · left; rw [charsLtB, if_neg (lt_irrefl x), if_neg (lt_irrefl x)]; exact h'
        · right; left; rw [charsLtB, if_neg (lt_irrefl x), if_neg (lt_irrefl x)]; exact h'
        · right; right; rw [h']
      · right; left; rw [charsLtB, if_pos h]

theorem strTricho (s t : String) :
    charsLtB s.data t.data = true ∨ charsLtB t.data s.data = true ∨ s = t := by
  rcases charsLtB_tricho s.data t.data with h | h | h
  · exact Or.inl h
  · exact Or.inr (Or.inl h)
  · refine Or.inr (Or.inr ?_)
    cases s with
    | mk d =>
      cases t with
      | mk d' => cases h; rfl

theorem ratPair_den_pos (a b : String) : 0 < (ratPair a b).2 := by
  unfold ratPair
  by_cases h : a.data.length + b.data.length = 0
  · rw [if_pos h]; exact Nat.one_pos
  · rw [if_neg h]; omega

/-- `x > y` and `y > z` gives `x > z` for cross-multiplied fractions of
naturals (positivity of what must be positive follows from the strict
inequalities themselves). -/
theorem cross_lt_trans {a1 a2 b1 b2 c1 c2 : Nat}
    (h1 : b1 * a2 < a1 * b2) (h2 : c1 * b2 < b1 * c2) : c1 * a2 < a1 * c2 := by
  have hc2 : 0 < c2 := by
    rcases Nat.eq_zero_or_pos c2 with h | h
    · subst h
      rw [Nat.mul_zero] at h2
      exact absurd h2 (Nat.not_lt_zero _)
    · exact h
  have key : c1 * a2 * b2 < a1 * c2 * b2 := by
    calc c1 * a2 * b2 = c1 * b2 * a2 := by ring
    _ ≤ b1 * c2 * a2 := mul_le_mul_right' (le_of_lt h2) a2
    _ = b1 * a2 * c2 := by ring
    _ < a1 * b2 * c2 := mul_lt_mul_of_pos_right h1 hc2
    _ = a1 * c2 * b2 := by ring
  exact lt_of_mul_lt_mul_right key (Nat.zero_le _)

theorem cross_eq_lt_trans {a1 a2 b1 b2 c1 c2 : Nat} (ha2 : 0 < a2)
    (heq : a1 * b2 = b1 * a2) (h2 : c1 * b2 < b1 * c2) : c1 * a2 < a1 * c2 := by
  have key : c1 * a2 * b2 < a1 * c2 * b2 := by
    calc c1 * a2 * b2 = c1 * b2 * a2 := by ring
    _ < b1 * c2 * a2 := mul_lt_mul_of_pos_right h2 ha2
    _ = b1 * a2 * c2 := by ring
    _ = a1 * b2 * c2 := by rw [heq]
    _ = a1 * c2 * b2 := by ring
  exact lt_of_mul_lt_mul_right key (Nat.zero_le _)

theorem cross_lt_eq_trans {a1 a2 b1 b2 c1 c2 : Nat} (hc2 : 0 < c2)
    (h1 : b1 * a2 < a1 * b2) (heq : b1 * c2 = c1 * b2) : c1 * a2 < a1 * c2 := by
  have key : c1 * a2 * b2 < a1 * c2 * b2 := by
    calc c1 * a2 * b2 = c1 * b2 * a2 := by ring
    _ = b1 * c2 * a2 := by rw [heq]
    _ = b1 * a2 * c2 := by ring
    _ < a1 * b2 * c2 := mul_lt_mul_of_pos_right h1 hc2
    _ = a1 * c2 * b2 := by ring
  exact lt_of_mul_lt_mul_right key (Nat.zero_le _)

theorem cross_eq_trans {a1 a2 b1 b2 c1 c2 : Nat} (hb2 : 0 < b2)
    (h1 : a1 * b2 = b1 * a2) (h2 : b1 * c2 = c1 * b2) : a1 * c2 = c1 * a2 := by
  have key : a1 * c2 * b2 = c1 * a2 * b2 := by
    calc a1 * c2 * b2 = a1 * b2 * c2 := by ring
    _ = b1 * a2 * c2 := by rw [h1]
    _ = b1 * c2 * a2 := by ring
    _ = c1 * b2 * a2 := by rw [h2]
    _ = c1 * a2 * b2 := by ring
  exact Nat.eq_of_mul_eq_mul_right hb2 key

instance candBefore_total (input : String) :
    IsTotal (String × CKind × String) (candBefore input) := by
  constructor
  intro x y
  rcases Nat.lt_trichotomy ((ratPair y.1 input).1 * (ratPair x.1 input).2)
      ((ratPair x.1 input).1 * (ratPair y.1 input).2) with h | h | h
  · exact Or.inl (Or.inl (by unfold ratGtB; exact decide_eq_true h))
  · have heqxy : ratEqB (ratPair x.1 input) (ratPair y.1 input) = true := by
      unfold ratEqB
      exact beq_iff_eq.2 h.symm
    have heqyx : ratEqB (ratPair y.1 input) (ratPair x.1 input) = true := by
      unfold ratEqB
      exact beq_iff_eq.2 h
    rcases strTricho x.1 y.1 with hs | hs | hs
    · exact Or.inr (Or.inr ⟨heqyx, Or.inl hs⟩)
    · exact Or.inl (Or.inr ⟨heqxy, Or.inl hs⟩)
    · exact Or.inl (Or.inr ⟨heqxy, Or.inr hs.symm⟩)
  · exact Or.inr (Or.inl (by unfold ratGtB; exact decide_eq_true h))

instance candBefore_trans (input : String) :
    IsTrans (String × CKind × String) (candBefore input) := by
  constructor
  intro x y z hxy hyz
  have hpx := ratPair_den_pos x.1 input
  have hpy := ratPair_den_pos y.1 input
  have hpz := ratPair_den_pos z.1 input
  rcases hxy with hgt1 | ⟨heq1, hle1⟩
  · rcases hyz with hgt2 | ⟨heq2, hle2⟩
    · exact Or.inl (by
        unfold ratGtB at hgt1 hgt2 ⊢
        exact decide_eq_true (cross_lt_trans (of_decide_eq_true hgt1)
          (of_decide_eq_true hgt2)))
    · exact Or.inl (by
        unfold ratGtB at hgt1 ⊢
        unfold ratEqB at heq2
        exact decide_eq_true (cross_lt_eq_trans hpz (of_decide_eq_true hgt1)
          (beq_iff_eq.1 heq2)))
  · rcases hyz with hgt2 | ⟨heq2, hle2⟩
    · exact Or.inl (by
        unfold ratGtB at hgt2 ⊢
        unfold ratEqB at heq1
        exact decide_eq_true (cross_eq_lt_trans hpx (beq_iff_eq.1 heq1)
          (of_decide_eq_true hgt2)))
    · refine Or.inr ⟨?_, ?_⟩
      · unfold ratEqB at heq1 heq2 ⊢
        exact beq_iff_eq.2 (cross_eq_trans hpy (beq_iff_eq.1 heq1) (beq_iff_eq.1 heq2))
      · rcases hle1 with hlt1 | heqs1
        · rcases hle2 with hlt2 | heqs2
          · exact Or.inl (charsLtB_trans hlt2 hlt1)
          · exact Or.inl (by rw [heqs2]; exact hlt1)
        · rcases hle2 with hlt2 | heqs2
          · exact Or.inl (by rw [← heqs1]; exact hlt2)
          · exact Or.inr (heqs2.trans heqs1)

/-! ### Claim C2 — the fuzzy tier's tie-breaking -/

/-- C2, counterexample: both slug keys `"abcx"` (inserted first) and
`"abcy"` qualify at the 0.85 cutoff with the same ratio against `"abc"`,
yet the resolver returns `"abcy"`'s record: `heapq.nlargest` compares the
`(score, key)` tuples, so score ties go to the lexicographically larger
key, not to candidate-insertion order. -/
theorem claim2_fuzzy_tiebreak_cex :
    resolve [⟨some "abcx", some "n1", none, none⟩, ⟨some "abcy", some "n2", none, none⟩]
        "abc" = .ok ⟨"abcy", "n2", false, [], none⟩ ∧
      allCandidates [⟨some "abcx", some "n1", none, none⟩,
          ⟨some "abcy", some "n2", none, none⟩] =
        [("abcx", CKind.slug, "abcx"), ("abcy", CKind.slug, "abcy"),
         ("n1", CKind.name, "n1"), ("n2", CKind.name, "n2")] ∧
      ratioGeB (ratPair "abcx" "abc") 85 100 = true ∧
      ratEqB (ratPair "abcx" "abc") (ratPair "abcy" "abc") = true := by
  refine ⟨by decide, by decide, by decide, by decide⟩

/-- C2, amended: when the first four tiers miss and some candidate passes
the 0.85 cutoff, the resolver dispatches on a qualifying candidate that is
maximal in the `nlargest` tuple order: every other qualifying candidate
either has a strictly smaller ratio or ties with a lexicographically
smaller (or equal) key; dispatch then follows the winner's tagged kind. -/
theorem claim2_fuzzy_tiebreak_amended (protocols : List Rec) (u n : String)
    (hn : pyLower (pyStrip u) = n)
    (h1 : slugLookup protocols n = none) (h2 : nameLookup protocols n = none)
    (h3 : n ∉ parentSlugsList protocols)
    (h4 : (parentSlugsList protocols).find? (fun ps => hyphenToSpace ps == n) = none)
    (h5 : pnmLookup protocols n = none)
    (hne : qualifyingCands protocols n ≠ []) :
    ∃ b, bestCand protocols n = some b ∧ b ∈ qualifyingCands protocols n ∧
      (∀ c ∈ qualifyingCands protocols n, c = b ∨ candBefore n b c) ∧
      resolve protocols u = dispatchCand protocols b := by
  have hperm := List.perm_insertionSort (candBefore n) (qualifyingCands protocols n)
  cases hs : List.insertionSort (candBefore n) (qualifyingCands protocols n) with
  | nil =>
    rw [hs] at hperm
    exact absurd hperm.symm.eq_nil hne
  | cons b t =>
    have hbest : bestCand protocols n = some b := by
      unfold bestCand
      rw [hs]
      rfl
    have hsorted := List.sorted_insertionSort (candBefore n) (qualifyingCands protocols n)
    rw [hs] at hsorted hperm
    refine ⟨b, hbest, ?_, ?_, ?_⟩
    · exact hperm.mem_iff.1 (List.mem_cons_self _ _)
    · intro c hc
      have hcs : c ∈ b :: t := hperm.mem_iff.2 hc
      rcases List.mem_cons.1 hcs with rfl | hct
      · exact Or.inl rfl
      · exact Or.inr ((List.pairwise_cons.1 hsorted).1 c hct)
    · simp only [resolve, hn, resolveCore, h1, h2, if_neg h3, h4, h5, hbest]

theorem claim2_fuzzy_tiebreak_witness :
    ∃ b, bestCand [⟨some "abcx", some "n1", none, none⟩,
          ⟨some "abcy", some "n2", none, none⟩] "abc" = some b ∧
      b ∈ qualifyingCands [⟨some "abcx", some "n1", none, none⟩,
          ⟨some "abcy", some "n2", none, none⟩] "abc" ∧
      (∀ c ∈ qualifyingCands [⟨some "abcx", some "n1", none, none⟩,
          ⟨some "abcy", some "n2", none, none⟩] "abc", c = b ∨ candBefore "abc" b c) ∧
      resolve [⟨some "abcx", some "n1", none, none⟩,
          ⟨some "abcy", some "n2", none, none⟩] "abc" =
        dispatchCand [⟨some "abcx", some "n1", none, none⟩,
          ⟨some "abcy", some "n2", none, none⟩] b :=
  claim2_fuzzy_tiebreak_amended
    [⟨some "abcx", some "n1", none, none⟩, ⟨some "abcy", some "n2", none, none⟩]
    "abc" "abc" (by decide) (by decide) (by decide) (by decide) (by decide)
    (by decide) (by decide)

/-! ### Claim C8 — the failure tier -/

theorem slugLookup_mem {protocols : List Rec} {n : String} {p : Rec}
    (h : slugLookup protocols n = some p) : p ∈ protocols :=
  List.mem_of_mem_filter (List.mem_of_mem_getLast? h)

theorem nameLookup_mem {protocols : List Rec} {n : String} {p : Rec}
    (h : nameLookup protocols n = some p) : p ∈ protocols :=
  List.mem_of_mem_filter (List.mem_of_mem_getLast? h)

theorem mkNonParent_ok {p : Rec} (hs : p.slug.isSome) (hn : p.name.isSome) :
    ∃ r, mkNonParent p = .ok r := by
  obtain ⟨s, hs'⟩ := Option.isSome_iff_exists.1 hs
  obtain ⟨n, hn'⟩ := Option.isSome_iff_exists.1 hn
  exact ⟨⟨s, n, false, [], p.category⟩, by rw [mkNonParent, hs', hn']⟩

theorem childPairs_ok : ∀ {l : List Rec},
    (∀ c ∈ l, c.slug.isSome ∧ c.name.isSome) → ∃ prs, childPairs l = some prs := by
  intro l
  induction l with
  | nil => intro _; exact ⟨[], rfl⟩
  | cons c cs ih =>
    intro hwf
    obtain ⟨prs, hprs⟩ := ih (fun x hx => hwf x (List.mem_cons_of_mem _ hx))
    obtain ⟨hs, hn⟩ := hwf c (List.mem_cons_self _ _)
    obtain ⟨s, hs'⟩ := Option.isSome_iff_exists.1 hs
    obtain ⟨nm, hn'⟩ := Option.isSome_iff_exists.1 hn
    exact ⟨(nm, s) :: prs, by rw [childPairs, hn', hs', hprs]; rfl⟩

theorem buildParentResult_ok {protocols : List Rec} (hwf : WF protocols) (ps : String) :
    ∃ r, buildParentResult protocols ps = .ok r := by
  have hsub : ∀ c ∈ childrenOf protocols ps, c.slug.isSome ∧ c.name.isSome :=
    fun c hc => hwf c (List.mem_of_mem_filter hc)
  obtain ⟨prs, hprs⟩ := childPairs_ok hsub
  exact ⟨_, by rw [buildParentResult, hprs]⟩

theorem bestCand_mem_qualifying {protocols : List Rec} {n : String}
    {c : String × CKind × String} (h : bestCand protocols n = some c) :
    c ∈ qualifyingCands protocols n := by
  unfold bestCand at h
  exact (List.perm_insertionSort (candBefore n) (qualifyingCands protocols n)).mem_iff.1
    (List.mem_of_mem_head? h)

theorem dispatchCand_ok {protocols : List Rec} {n : String} {c : String × CKind × String}
    (hwf : WF protocols) (hc : bestCand protocols n = some c) :
    ∃ r, dispatchCand protocols c = .ok r := by
  have hcand : c ∈ allCandidates protocols :=
    List.mem_of_mem_filter (bestCand_mem_qualifying hc)
  unfold dispatchCand
  cases hk : c.2.1 with
  | parent => exact buildParentResult_ok hwf c.2.2
  | slug =>
    obtain ⟨p, hp⟩ := slugLookup_isSome_of_mem_slugKeys ((allCandidates_spec hcand).1 hk)
    rw [hp]
    obtain ⟨hs, hn⟩ := hwf p (slugLookup_mem hp)
    exact mkNonParent_ok hs hn
  | name =>
    obtain ⟨p, hp⟩ := nameLookup_isSome_of_mem_nameKeys ((allCandidates_spec hcand).2.1 hk)
    rw [hp]
    obtain ⟨hs, hn⟩ := hwf p (nameLookup_mem hp)
    exact mkNonParent_ok hs hn

/-- When the fuzzy tier has no winner the qualifying set is empty. -/
theorem qualifying_nil_of_bestCand_none {protocols : List Rec} {n : String}
    (h : bestCand protocols n = none) : qualifyingCands protocols n = [] := by
  unfold bestCand at h
  have hs : List.insertionSort (candBefore n) (qualifyingCands protocols n) = [] := by
    cases hc : List.insertionSort (candBefore n) (qualifyingCands protocols n) with
    | nil => rfl
    | cons b t => rw [hc] at h; cases h
  have hperm := List.perm_insertionSort (candBefore n) (qualifyingCands protocols n)
  rw [hs] at hperm
  exact hperm.symm.eq_nil

/-- The suggestion loop, under well-formedness: it maps every qualifying
lowercased key back to a display name, never raises, and yields at most
three names, each of which lowercases to a key that passed the 0.4
cutoff; when nothing passes the cutoff it yields nothing. -/
theorem mapBackSuggestions_ok {protocols : List Rec} (hwf : WF protocols) :
    ∀ {keys : List String}, (∀ s ∈ keys, ∃ p ∈ protocols, nameKey p = s) →
      ∃ sg, mapBackSuggestions protocols keys = .ok sg ∧ sg.length = keys.length ∧
        (∀ nm ∈ sg, ∃ s ∈ keys, pyLower nm = s) := by
  intro keys
  induction keys with
  | nil => intro _; exact ⟨[], rfl, rfl, by simp⟩
  | cons s rest ih =>
    intro hkeys
    obtain ⟨sg, hsg, hlen, hmem⟩ := ih (fun x hx => hkeys x (List.mem_cons_of_mem _ hx))
    have hfind : ((protocols.find? (fun p => nameKey p == s))).isSome := by
      rw [List.find?_isSome]
      obtain ⟨p, hp, hps⟩ := hkeys s (List.mem_cons_self _ _)
      exact ⟨p, hp, by simp [hps]⟩
    obtain ⟨p, hp⟩ := Option.isSome_iff_exists.1 hfind
    have hpmem : p ∈ protocols := List.mem_of_find?_eq_some hp
    have hpkey : nameKey p = s := by
      have := List.find?_some hp
      simpa using this
    obtain ⟨nm, hnm⟩ := Option.isSome_iff_exists.1 (hwf p hpmem).2
    refine ⟨nm :: sg, ?_, by simp [hlen], ?_⟩
    · simp only [mapBackSuggestions, hp, hnm, hsg]
      rfl
    · intro x hx
      rcases List.mem_cons.1 hx with rfl | hx
      · refine ⟨s, List.mem_cons_self _ _, ?_⟩
        rw [← hpkey, nameKey, hnm]
        rfl
      · obtain ⟨s', hs', hxs'⟩ := hmem x hx
        exact ⟨s', List.mem_cons_of_mem _ hs', hxs'⟩

theorem suggestionKeys_sub {protocols : List Rec} {n : String} {s : String}
    (h : s ∈ suggestionKeys protocols n) :
    s ∈ (protocols.map (fun p => pyLower (p.name.getD ""))).filter
      (fun nm => ratioGeB (ratPair nm n) 2 5) := by
  unfold suggestionKeys at h
  have hsorted := List.take_subset 3 _ h
  exact (List.perm_insertionSort (suggBefore n) _).mem_iff.1 hsorted

/-- The suggestion block of the failure tier, bundled. -/
theorem suggestions_ok {protocols : List Rec} (n : String) (hwf : WF protocols) :
    ∃ sg, mapBackSuggestions protocols (suggestionKeys protocols n) = .ok sg ∧
      sg.length ≤ 3 ∧
      (∀ nm ∈ sg, ratioGeB (ratPair (pyLower nm) n) 2 5 = true) ∧
      ((∀ p ∈ protocols,
          ratioGeB (ratPair (pyLower (p.name.getD "")) n) 2 5 = false) → sg = []) := by
  have hkeys : ∀ s ∈ suggestionKeys protocols n, ∃ p ∈ protocols, nameKey p = s := by
    intro s hs
    obtain ⟨hmap, _⟩ := List.mem_filter.1 (suggestionKeys_sub hs)
    obtain ⟨p, hp, hps⟩ := List.mem_map.1 hmap
    exact ⟨p, hp, hps⟩
  obtain ⟨sg, hsg, hlen, hmem⟩ := mapBackSuggestions_ok hwf hkeys
  refine ⟨sg, hsg, ?_, ?_, ?_⟩
  · rw [hlen]
    unfold suggestionKeys
    exact List.length_take_le _ _
  · intro nm hnm
    obtain ⟨s, hs, hnms⟩ := hmem nm hnm
    obtain ⟨_, hq⟩ := List.mem_filter.1 (suggestionKeys_sub hs)
    rw [hnms]
    exact hq
  · intro hno
    have hfil : (protocols.map (fun p => pyLower (p.name.getD ""))).filter
        (fun nm => ratioGeB (ratPair nm n) 2 5) = [] := by
      rw [List.filter_eq_nil_iff]
      intro nm hnm
      obtain ⟨p, hp, hps⟩ := List.mem_map.1 hnm
      rw [← hps, hno p hp]
      exact Bool.false_ne_true
    have hkeys0 : suggestionKeys protocols n = [] := by
      unfold suggestionKeys
      rw [hfil]
      rfl
    rw [hkeys0] at hlen
    exact List.length_eq_zero.1 hlen

/-- Under well-formedness, the fall-through of all five tiers produces
exactly the `ProtocolNotFound` outcome, with its suggestion payload. -/
theorem resolveCore_of_noTier {protocols : List Rec} {u n : String} (hwf : WF protocols)
    (hnt : noTierMatch protocols n) :
    ∃ sg, resolveCore protocols u n = .error (.notFound u sg) ∧ sg.length ≤ 3 ∧
      (∀ nm ∈ sg, ratioGeB (ratPair (pyLower nm) n) 2 5 = true) ∧
      ((∀ p ∈ protocols,
          ratioGeB (ratPair (pyLower (p.name.getD "")) n) 2 5 = false) → sg = []) := by
  obtain ⟨h1, h2, h3, h4, h5, hq⟩ := hnt
  have hbest : bestCand protocols n = none := by
    unfold bestCand
    rw [hq]
    rfl
  obtain ⟨sg, hsg, hlen, hrat, hemp⟩ := suggestions_ok n hwf
  refine ⟨sg, ?_, hlen, hrat, hemp⟩
  simp only [resolveCore, h1, h2, if_neg h3, h4, h5, hbest, hsg]

/-- Under well-formedness, either some tier succeeds or none matches. -/
theorem resolveCore_wf_tiers {protocols : List Rec} (u n : String) (hwf : WF protocols) :
    (∃ r, resolveCore protocols u n = .ok r) ∨ noTierMatch protocols n := by
  cases hl1 : slugLookup protocols n with
  | some p =>
    left
    obtain ⟨hs, hn⟩ := hwf p (slugLookup_mem hl1)
    obtain ⟨r, hr⟩ := mkNonParent_ok hs hn
    exact ⟨r, by simp only [resolveCore, hl1, hr]⟩
  | none =>
  cases hl2 : nameLookup protocols n with
  | some p =>
    left
    obtain ⟨hs, hn⟩ := hwf p (nameLookup_mem hl2)
    obtain ⟨r, hr⟩ := mkNonParent_ok hs hn
    exact ⟨r, by simp only [resolveCore, hl1, hl2, hr]⟩
  | none =>
  by_cases hmem : n ∈ parentSlugsList protocols
  · left
    obtain ⟨r, hr⟩ := buildParentResult_ok hwf n
    exact ⟨r, by simp only [resolveCore, hl1, hl2, if_pos hmem, hr]⟩
  · cases hf : (parentSlugsList protocols).find? (fun ps => hyphenToSpace ps == n) with
    | some ps =>
      left
      obtain ⟨r, hr⟩ := buildParentResult_ok hwf ps
      exact ⟨r, by simp only [resolveCore, hl1, hl2, if_neg hmem, hf, hr]⟩
    | none =>
    cases hpn : pnmLookup protocols n with
    | some ps =>
      left
      obtain ⟨r, hr⟩ := buildParentResult_ok hwf ps
      exact ⟨r, by simp only [resolveCore, hl1, hl2, if_neg hmem, hf, hpn, hr]⟩
    | none =>
    cases hb : bestCand protocols n with
    | some c =>
      left
      obtain ⟨r, hr⟩ := dispatchCand_ok hwf hb
      exact ⟨r, by simp only [resolveCore, hl1, hl2, if_neg hmem, hf, hpn, hb, hr]⟩
    | none =>
      right
      exact ⟨hl1, hl2, hmem, hf, hpn, qualifying_nil_of_bestCand_none hb⟩

/-- C8: for well-formed snapshots, `resolve` raises `ProtocolNotFound` if
and only if no matching tier succeeds; the error carries the original
input and an ordered list of at most 3 suggested display names, each
within similarity at least `0.4` (of their lowercased form against the
normalised input); when no display name reaches `0.4` the list is empty. -/
theorem claim8_not_found (protocols : List Rec) (u : String) (hwf : WF protocols) :
    (∀ e, resolve protocols u = .error e →
      ∃ sg, e = .notFound u sg ∧ sg.length ≤ 3 ∧
        (∀ nm ∈ sg,
          ratioGeB (ratPair (pyLower nm) (pyLower (pyStrip u))) 2 5 = true) ∧
        ((∀ p ∈ protocols,
            ratioGeB (ratPair (pyLower (p.name.getD "")) (pyLower (pyStrip u))) 2 5 =
              false) → sg = [])) ∧
      ((∃ sg, resolve protocols u = .error (.notFound u sg)) ↔
        noTierMatch protocols (pyLower (pyStrip u))) := by
  constructor
  · intro e he
    rcases resolveCore_wf_tiers u (pyLower (pyStrip u)) hwf with ⟨r, hr⟩ | hnt
    · rw [resolve, hr] at he
      cases he
    · obtain ⟨sg, hsg, hlen, hrat, hemp⟩ := resolveCore_of_noTier hwf hnt
      rw [resolve, hsg] at he
      injection he with he'
      exact ⟨sg, he'.symm, hlen, hrat, hemp⟩
  · constructor
    · rintro ⟨sg, hsg⟩
      rcases resolveCore_wf_tiers u (pyLower (pyStrip u)) hwf with ⟨r, hr⟩ | hnt
      · rw [resolve, hr] at hsg
        cases hsg
      · exact hnt
    · intro hnt
      obtain ⟨sg, hsg, _, _, _⟩ := resolveCore_of_noTier (u := u) hwf hnt
      exact ⟨sg, hsg⟩

theorem claim8_not_found_witness :
    (∀ e, resolve [⟨some "s1", some "Lido", none, none⟩,
        ⟨some "s2", some "Ligo", none, none⟩] "liqo" = .error e →
      ∃ sg, e = .notFound "liqo" sg ∧ sg.length ≤ 3 ∧
        (∀ nm ∈ sg,
          ratioGeB (ratPair (pyLower nm) (pyLower (pyStrip "liqo"))) 2 5 = true) ∧
        ((∀ p ∈ [(⟨some "s1", some "Lido", none, none⟩ : Rec),
            ⟨some "s2", some "Ligo", none, none⟩],
            ratioGeB (ratPair (pyLower (p.name.getD "")) (pyLower (pyStrip "liqo"))) 2 5 =
              false) → sg = [])) ∧
      ((∃ sg, resolve [⟨some "s1", some "Lido", none, none⟩,
          ⟨some "s2", some "Ligo", none, none⟩] "liqo" = .error (.notFound "liqo" sg)) ↔
        noTierMatch [⟨some "s1", some "Lido", none, none⟩,
          ⟨some "s2", some "Ligo", none, none⟩] (pyLower (pyStrip "liqo"))) :=
  claim8_not_found
    [⟨some "s1", some "Lido", none, none⟩, ⟨some "s2", some "Ligo", none, none⟩]
    "liqo" (by decide)

end DefiAgent
